import Mathlib

/-!
Verification of the neural-network training engine in `scripts/nn.py`
(`class NeuralNetwork`): forward propagation, backpropagation, momentum
mini-batch gradient descent with L1/L2 regularization, early stopping,
`predict`, `reset` and `get_params`.

Embedding conventions:
* 2-D numpy arrays are `Mat := List (List ℚ)` (a list of rows); numpy's
  exact binary floats are idealized as rationals.
* `numpy.random` draws (weight/bias initialization, epoch shuffles) are
  oracles: the constructor receives the drawn matrices, `train` receives a
  per-epoch shuffle outcome `σ : ℕ → Mat → Mat`.
* The helper modules `activations.py`, `losses.py`, `regularizers.py`,
  `utils.py` and `metrics.py` imported by `nn.py` are not part of the
  sources; the few functions `nn.py` uses from them are modelled from the
  spec and marked `Modelled from the spec:` below.  Theorems about the
  layer recurrences quantify over an arbitrary activation registry
  `R : String → ActFun`, so nothing depends on the modelled registry
  beyond the spec-listed `identity` and `relu` entries.
* Python `assert` failures in the constructor are `Except.error`.
-/

/-- Matrices as lists of rows of rationals (2-D numpy arrays). -/
abbrev Mat : Type := List (List ℚ)

/-- Entrywise map over a matrix (numpy elementwise ufunc application). -/
def mapMat (f : ℚ → ℚ) (A : Mat) : Mat := A.map (fun r => r.map f)

/-- Entrywise subtraction of same-shaped matrices. -/
def matSub (A B : Mat) : Mat :=
  List.zipWith (fun r s => List.zipWith (fun p q => p - q) r s) A B

/-- Entrywise (Hadamard) product, `np.multiply`. -/
def hadamard (A B : Mat) : Mat :=
  List.zipWith (fun r s => List.zipWith (fun p q => p * q) r s) A B

/-- Scalar multiple of a matrix. -/
def smulMat (c : ℚ) (A : Mat) : Mat := mapMat (fun q => c * q) A

/-- Entrywise negation (numpy `0 - A` on the int-0 momentum placeholder). -/
def matNeg (A : Mat) : Mat := mapMat (fun q => -q) A

/-- Dot product of two equally long rows. -/
def dotL (r s : List ℚ) : ℚ := (List.zipWith (fun p q => p * q) r s).sum

/-- Transpose; column count is read off the first row, as for a
rectangular numpy array. -/
def matTranspose (A : Mat) : Mat :=
  (List.range (A.headD []).length).map (fun j => A.map (fun r => r.getD j 0))

/-- Matrix product `A.dot(B)`. -/
def matMul (A B : Mat) : Mat :=
  A.map (fun r => (matTranspose B).map (fun c => dotL r c))

/-- Sum over the batch dimension: `g.sum(axis=1).reshape(-1, 1)`. -/
def rowSumCol (G : Mat) : Mat := G.map (fun r => [r.sum])

/-- Rational sign, `np.sign`. -/
def signQ (q : ℚ) : ℚ := if 0 < q then 1 else if q < 0 then -1 else 0

/-- Entrywise sign of a matrix. -/
def matSign (A : Mat) : Mat := mapMat signQ A

/-- Numpy `+` restricted to the shapes `nn.py` adds: equal shapes, or a
single-column bias broadcast against a `[rows, batch]` matrix (either
operand order). -/
def bcastRow (r s : List ℚ) : List ℚ :=
  if r.length = 1 then s.map (fun q => r.getD 0 0 + q)
  else if s.length = 1 then r.map (fun q => q + s.getD 0 0)
  else List.zipWith (fun p q => p + q) r s

/-- Numpy matrix addition with single-column broadcasting (`b + W.dot(x)`
in `forward_propagation`, `W.dot(x) + b` in `predict`). -/
def npAdd (A B : Mat) : Mat := List.zipWith bcastRow A B

/-- Row-wise horizontal concatenation, `np.hstack((X, y))` for 2-D inputs. -/
def hstackM (A B : Mat) : Mat := List.zipWith (fun r s => r ++ s) A B

/-- Column count of a matrix, `A.shape[1]` for a rectangular array. -/
def numCols (A : Mat) : ℕ := (A.headD []).length

/-- Last element with default: Python's `l[-1]` on the nonempty lists the
engine builds. -/
def lastD {α : Type} (l : List α) (d : α) : α := l.getD (l.length - 1) d

/-- Python `min(l)` on a nonempty list (the engine only calls it on
nonempty validation histories; the `[]` default is never reached there). -/
def minList : List ℚ → ℚ
  | [] => 0
  | q :: qs => qs.foldl min q

/-- Shape predicate: `A` is an `r × c` rectangular matrix. -/
def IsMat (A : Mat) (r c : ℕ) : Prop :=
  A.length = r ∧ ∀ row ∈ A, row.length = c

instance (A : Mat) (r c : ℕ) : Decidable (IsMat A r c) := by
  unfold IsMat; infer_instance

/-- An activation-function entry of the registry `act.A_F`: the value
function `f` and its derivative `fdev`, both elementwise. -/
structure ActFun where
  f : ℚ → ℚ
  fdev : ℚ → ℚ

/-- Modelled from the spec: the activation registry `act.A_F` of the
missing `activations.py`, restricted to its ℚ-representable members.  The
spec lists `{Sigmoid, ReLU, Tanh, Identity}`; `identity` and `relu` are
given their spec meaning, while the real-valued `sigmoid`/`tanh` fall to
an identity placeholder that no theorem or witness below ever selects
(all structural theorems quantify over an arbitrary registry). -/
def A_Fq : String → ActFun := fun name =>
  if name = "identity" then ⟨fun q => q, fun _ => 1⟩
  else if name = "relu" then
    ⟨fun q => if 0 < q then q else 0, fun q => if 0 < q then 1 else 0⟩
  else ⟨fun q => q, fun _ => 1⟩

/-- Modelled from the spec: `lss.mean_squared_error(pred, target)` of the
missing `losses.py` — "the scalar mean-squared-error between `h[last]ᵗ`
and the target batch" (the spec fixes neither the normalization nor a
constant factor; no claim below depends on either). -/
def mean_squared_error (P Y : Mat) : ℚ :=
  ((matSub P Y).map (fun r => (r.map (fun q => q * q)).sum)).sum / (P.length : ℚ)

/-- Modelled from the spec: the `gradient=True` branch of
`lss.mean_squared_error` — "the MSE loss gradient with respect to the
network's final output"; per spec §4.3 no batch normalization happens in
the backward engine, and the spec-unspecified constant factor is taken to
be 1 (no claim below depends on it). -/
def mean_squared_error_gradient (H Yt : Mat) : Mat := matSub H Yt

/-- Modelled from the spec: `metrics.mse(y_true, y_pred)` of the missing
`metrics.py`, the whole-epoch mean-squared-error metric. -/
def metrics_mse (yTrue yPred : Mat) : ℚ := mean_squared_error yPred yTrue

/-- Modelled from the spec: `reg.regularization(W, lambda, method)` of the
missing `regularizers.py` — `λ·sign(W)` for L1, `λ·W` for L2. -/
def regularization (W : Mat) (lam : ℚ) (method : String) : Mat :=
  if method = "l1" then smulMat lam (matSign W) else smulMat lam W

/-- Modelled from the spec: `u.compose_topology(X, hidden_sizes, y)` of
the missing `utils.py` — "the ordered sequence of layer widths
`[n_input, h1, …, hk, n_output]`" derived from the data dimensions and
the hidden-size list. -/
def compose_topology (X : Mat) (hidden : List ℤ) (y : Mat) : List ℤ :=
  (numCols X : ℤ) :: hidden ++ [(numCols y : ℤ)]

/-- The `activation` constructor argument, which Python dispatches on by
type: either a per-layer list of names or a single name. -/
inductive ActArg where
  | listOf (names : List String)
  | str (name : String)
deriving DecidableEq

/-- Write `s` into the last position of `l` (`acts[-1] = 'identity'`). -/
def setLastStr (l : List String) (s : String) : List String :=
  l.set (l.length - 1) s

/-- `NeuralNetwork.set_activation`: a list must have one name per layer;
a single name is replicated, with the last layer forced to `identity`
when the task is regression. -/
def set_activation (n_layers : ℕ) (activation : ActArg) (task : String) :
    Except String (List String) :=
  match activation with
  | .listOf names =>
      if names.length = n_layers then .ok names
      else .error "assert len(activation) == self.n_layers"
  | .str name =>
      let acts := List.replicate n_layers name
      .ok (if task = "regression" then setLastStr acts "identity" else acts)

/-- The mutable state of a `NeuralNetwork` instance.  `W_copy`/`b_copy`
are separate fields because the source takes genuine deep copies
(`[w.copy() for w in self.W]` at construction, and again in `reset`), so
the snapshot and the live weights never alias.  The Python int-0
placeholders in `delta_W`/`delta_b`/`a`/`h` are empty matrices here. -/
structure Net where
  hidden_sizes : List ℤ
  n_layers : ℕ
  topology : List ℤ
  eta : ℚ
  alpha : ℚ
  epsilon : ℚ
  batch_size : ℕ
  reg_method : String
  reg_lambda : ℚ
  epochs : ℕ
  activation : List String
  W : List Mat
  W_copy : List Mat
  b : List Mat
  b_copy : List Mat
  delta_W : List Mat
  delta_b : List Mat
  a : List Mat
  h : List Mat
  task : String
  error_per_epochs : List ℚ
  error_per_epochs_old : List ℚ
  error_per_batch : List ℚ
  error_per_epochs_va : Option (List ℚ)
deriving DecidableEq

/-- `NeuralNetwork.__init__`.  `W0`, `b0` are the oracle outcomes of the
`np.random.uniform` draws in `set_weights`/`set_bias` (the Glorot bound
`w_par` only shapes the random distribution and is not modelled).  The
Python `assert`s on `reg_method` and `task` and the length assert inside
`set_activation` become `Except.error`; no other argument is validated,
exactly as in the source. -/
def nnInit (X y : Mat) (hidden_sizes : List ℤ) (eta alpha epsilon : ℚ)
    (epochs batch_size : ℕ) (reg_lambda : ℚ) (reg_method : String)
    (activation : ActArg) (task : String) (W0 b0 : List Mat) :
    Except String Net :=
  let n_layers := hidden_sizes.length + 1
  if reg_method = "l1" ∨ reg_method = "l2" then
    match set_activation n_layers activation task with
    | .error e => .error e
    | .ok acts =>
        if task = "classifier" ∨ task = "regression" then
          .ok { hidden_sizes := hidden_sizes
                n_layers := n_layers
                topology := compose_topology X hidden_sizes y
                eta := eta, alpha := alpha, epsilon := epsilon
                batch_size := batch_size
                reg_method := reg_method, reg_lambda := reg_lambda
                epochs := epochs
                activation := acts
                W := W0, W_copy := W0, b := b0, b_copy := b0
                delta_W := List.replicate n_layers []
                delta_b := List.replicate n_layers []
                a := List.replicate n_layers []
                h := List.replicate n_layers []
                task := task
                error_per_epochs := [], error_per_epochs_old := []
                error_per_batch := [], error_per_epochs_va := none }
        else .error "assert task"
  else .error "assert reg_method"

/-- The configuration snapshot returned by `get_params`. -/
structure Params where
  eta : ℚ
  alpha : ℚ
  batch_size : ℕ
  hidden_sizes : List ℤ
  reg_method : String
  reg_lambda : ℚ
  epochs : ℕ
  activation : List String
deriving DecidableEq

/-- `NeuralNetwork.get_params`. -/
def get_params (net : Net) : Params :=
  { eta := net.eta, alpha := net.alpha, batch_size := net.batch_size
    hidden_sizes := net.hidden_sizes, reg_method := net.reg_method
    reg_lambda := net.reg_lambda, epochs := net.epochs
    activation := net.activation }

/-- The layer loop of `forward_propagation`, building the fresh `a` and
`h` caches for the first `k` layers:
`a[i] = b[i] + W[i].dot(x.T if i == 0 else h[i-1])`, and
`h[i] = f(a[i])` unless the task is non-classifier and `i` is the final
layer (`i = nl - 1`), in which case `h[i] = a[i]`. -/
def forwardLists (R : String → ActFun) (W b : List Mat) (acts : List String)
    (task : String) (nl : ℕ) (x : Mat) : ℕ → List Mat × List Mat
  | 0 => ([], [])
  | k + 1 =>
      let p := forwardLists R W b acts task nl x k
      let inp := if k = 0 then matTranspose x else p.2.getD (k - 1) []
      let ak := npAdd (b.getD k []) (matMul (W.getD k []) inp)
      let hk := if task = "classifier" ∨ k ≠ nl - 1 then
                  mapMat (R (acts.getD k "")).f ak
                else ak
      (p.1 ++ [ak], p.2 ++ [hk])

/-- `NeuralNetwork.forward_propagation`: rebuilds the layer caches and
returns the scalar loss `lss.mean_squared_error(h[-1].T, y)`. -/
def forward_propagation (R : String → ActFun) (net : Net) (x y : Mat) :
    Net × ℚ :=
  let p := forwardLists R net.W net.b net.activation net.task net.n_layers x
             net.n_layers
  ({ net with a := p.1, h := p.2 },
   mean_squared_error (matTranspose (p.2.getD (net.n_layers - 1) [])) y)

/-- The reverse layer loop of `back_propagation`, writing
`delta_b[l] = g.sum(axis=1).reshape(-1,1)` and
`delta_W[l] = g.dot(h[l-1].T if l != 0 else x)` into the delta lists,
where at each layer `g` is first multiplied elementwise by
`fdev(a[l])` and afterwards propagated as `W[l].T.dot(g)`. -/
def backGo (R : String → ActFun) (W : List Mat) (acts : List String)
    (aC hC : List Mat) (x : Mat) :
    ℕ → Mat → List Mat → List Mat → List Mat × List Mat
  | 0, g, dWs, dbs =>
      let g1 := hadamard g (mapMat (R (acts.getD 0 "")).fdev (aC.getD 0 []))
      (dWs.set 0 (matMul g1 x), dbs.set 0 (rowSumCol g1))
  | l + 1, g, dWs, dbs =>
      let g1 := hadamard g
        (mapMat (R (acts.getD (l + 1) "")).fdev (aC.getD (l + 1) []))
      backGo R W acts aC hC x l
        (matMul (matTranspose (W.getD (l + 1) [])) g1)
        (dWs.set (l + 1) (matMul g1 (matTranspose (hC.getD l []))))
        (dbs.set (l + 1) (rowSumCol g1))

/-- `NeuralNetwork.back_propagation`: `g` starts as the MSE gradient of
the cached final output against `y.T`, then the reverse loop fills the
gradient caches. -/
def back_propagation (R : String → ActFun) (net : Net) (x y : Mat) : Net :=
  let g0 := mean_squared_error_gradient (lastD net.h []) (matTranspose y)
  match net.n_layers with
  | 0 => net
  | n + 1 =>
      let p := backGo R net.W net.activation net.a net.h x n g0
                 net.delta_W net.delta_b
      { net with delta_W := p.1, delta_b := p.2 }

/-- The layer loop of `predict`: unlike `forward_propagation` it applies
the configured activation at every layer, with no task branch, and adds
the bias on the right (`W.dot(inp) + b`). -/
def predictLists (R : String → ActFun) (W b : List Mat) (acts : List String)
    (x : Mat) : ℕ → List Mat × List Mat
  | 0 => ([], [])
  | k + 1 =>
      let p := predictLists R W b acts x k
      let inp := if k = 0 then matTranspose x else p.2.getD (k - 1) []
      let ak := npAdd (matMul (W.getD k []) inp) (b.getD k [])
      let hk := mapMat (R (acts.getD k "")).f ak
      (p.1 ++ [ak], p.2 ++ [hk])

/-- `predict` as a function of weights, biases and activations only. -/
def predictWB (R : String → ActFun) (W b : List Mat) (acts : List String)
    (nl : ℕ) (x : Mat) : Mat :=
  matTranspose ((predictLists R W b acts x nl).2.getD (nl - 1) [])

/-- `NeuralNetwork.predict`: returns `h_pred[-1].T` and touches no state. -/
def predict (R : String → ActFun) (net : Net) (x : Mat) : Mat :=
  predictWB R net.W net.b net.activation net.n_layers x

/-- `NeuralNetwork.reset`: restore the construction-time snapshot into
fresh live weights and clear the transient caches. -/
def reset (net : Net) : Net :=
  { net with W := net.W_copy, b := net.b_copy
             delta_W := List.replicate net.n_layers []
             delta_b := List.replicate net.n_layers []
             a := List.replicate net.n_layers []
             h := List.replicate net.n_layers [] }

/-- A momentum velocity entry: `none` is the Python int-0 placeholder the
velocity lists start from; `some v` is the accumulated array. -/
abbrev Vel : Type := Option Mat

/-- One velocity update, `alpha * velocity - c * d` where `c = eta / m`:
on the int-0 placeholder numpy broadcasts `0 - c*d` to `-(c*d)`. -/
def velNew (alpha c : ℚ) (v : Vel) (d : Mat) : Mat :=
  match v with
  | none => matNeg (smulMat c d)
  | some vm => matSub (smulMat alpha vm) (smulMat c d)

/-- The body of the per-batch weight-update loop of `train`
(lines 340-352) at one `layer` index `l`: compute the weight decay from
the current weights, update the bias velocity and the bias, then the
weight velocity and the weights.  The state is `(W, b, velocity_W,
velocity_b)`. -/
def updOne (eta alpha lam : ℚ) (method : String) (m : ℕ)
    (dW db : List Mat)
    (st : List Mat × List Mat × List Vel × List Vel) (l : ℕ) :
    List Mat × List Mat × List Vel × List Vel :=
  let weight_decay := regularization (st.1.getD l []) lam method
  let vbl := velNew alpha (eta / (m : ℚ)) (st.2.2.2.getD l none) (db.getD l [])
  let bc' := st.2.1.set l (npAdd (st.2.1.getD l []) vbl)
  let vWl := velNew alpha (eta / (m : ℚ)) (st.2.2.1.getD l none)
               (npAdd weight_decay (dW.getD l []))
  let Wc' := st.1.set l (npAdd (st.1.getD l []) vWl)
  (Wc', bc', st.2.2.1.set l (some vWl), st.2.2.2.set l (some vbl))

/-- The per-batch weight-update loop of `train`:
`for layer in range(self.n_layers)`. -/
def updateLayersGo (eta alpha lam : ℚ) (method : String) (m : ℕ)
    (dW db : List Mat) :
    List ℕ → List Mat × List Mat × List Vel × List Vel →
    List Mat × List Mat × List Vel × List Vel
  | [], st => st
  | l :: rest, st =>
      updateLayersGo eta alpha lam method m dW db rest
        (updOne eta alpha lam method m dW db st l)

/-- The local state of one `train` call: the network, the two velocity
lists (locals of `train`), the rebound locals `X`, `y` (re-assigned by
the per-epoch `np.hsplit`), and the early-stopping state-machine flag
(`RUNNING`/`STOPPED`; `true` once the `break` at line 384 has fired). -/
structure TSt where
  net : Net
  vW : List Vel
  vb : List Vel
  Xc : Mat
  yc : Mat
  stopped : Bool
deriving DecidableEq

/-- The validation-error history `error_per_epochs_va` as a plain list. -/
def evaOf (s : TSt) : List ℚ := (s.net.error_per_epochs_va).getD []

/-- The mini-batch start offsets `np.arange(0, rows, batch_size)`. -/
def batchStarts (rows bs : ℕ) : List ℕ :=
  if bs = 0 then [] else (List.range ((rows + bs - 1) / bs)).map (fun i => i * bs)

/-- One mini-batch of `train`: forward pass (loss recorded in
`error_per_batch` and returned for the epoch-local list), backward pass,
then the per-layer momentum update. -/
def processBatch (R : String → ActFun) (s : TSt) (xb yb : Mat) : TSt × ℚ :=
  let fp := forward_propagation R s.net xb yb
  let net2 := { fp.1 with error_per_batch := fp.1.error_per_batch ++ [fp.2] }
  let net3 := back_propagation R net2 xb yb
  let upd := updateLayersGo net3.eta net3.alpha net3.reg_lambda net3.reg_method
               xb.length net3.delta_W net3.delta_b (List.range net3.n_layers)
               (net3.W, net3.b, s.vW, s.vb)
  ({ s with net := { net3 with W := upd.1, b := upd.2.1 },
            vW := upd.2.2.1, vb := upd.2.2.2 },
   fp.2)

/-- All mini-batches of one epoch, accumulating the epoch-local loss list. -/
def processBatches (R : String → ActFun) (bs : ℕ) (X' y' : Mat) :
    List ℕ → TSt × List ℚ → TSt × List ℚ
  | [], p => p
  | st :: rest, (s, errs) =>
      let xb := (X'.drop st).take bs
      let yb := (y'.drop st).take bs
      let q := processBatch R s xb yb
      processBatches R bs X' y' rest (q.1, errs ++ [q.2])

/-- One epoch of `train`: shuffle the joint dataset (oracle `σe` stands
for the outcome of `np.random.shuffle` on the fresh `np.hstack` copy),
split it back into rebound locals, run all mini-batches, then append the
epoch-level training error (full-dataset `predict` + metric), the old
batch-loss average, and, when a validation set exists, the epoch
validation error. -/
def runEpoch (R : String → ActFun) (σe : Mat → Mat)
    (Xva : Option (Mat × Mat)) (s : TSt) : TSt :=
  let ds := σe (hstackM s.Xc s.yc)
  let k := numCols s.Xc
  let X' := ds.map (fun r => r.take k)
  let y' := ds.map (fun r => r.drop k)
  let p := processBatches R s.net.batch_size X' y'
             (batchStarts X'.length s.net.batch_size)
             ({ s with Xc := X', yc := y' }, [])
  let n1 := p.1.net
  let n2 := { n1 with
    error_per_epochs_old :=
      n1.error_per_epochs_old ++ [p.2.sum / (X'.length : ℚ)]
    error_per_epochs :=
      n1.error_per_epochs ++ [metrics_mse y' (predict R n1 X')] }
  let n3 := match Xva with
    | some q =>
        let L := (n2.error_per_epochs_va).getD []
        { n2 with
          error_per_epochs_va := some (L ++ [metrics_mse q.2 (predict R n2 q.1)]) }
    | none => n2
  { p.1 with net := n3 }

/-- The early-stopping test of lines 370-384, on the current validation
history `L` (of length `e + 1` when evaluated):
`generalization_loss = 100 * (L[e] / min(L) - 1)`,
`progress = 1000 * (sum(strip) / (5 * min(strip)) - 1)` over the strip
`L[e-4 : e+1]`, stop iff their quotient exceeds `epsilon`.  Division is
the total rational division of the embedding. -/
def earlyStopCheckL (epsilon : ℚ) (L : List ℚ) (e : ℕ) : Bool :=
  let generalization_loss := 100 * (L.getD e 0 / minList L - 1)
  let strip := (L.take (e + 1)).drop (e - 4)
  let progress := 1000 * (strip.sum / (5 * minList strip) - 1)
  decide (generalization_loss / progress > epsilon)

/-- The epoch loop of `train`: run an epoch, then, when a validation set
was supplied and `(e + 1) % 5 == 0`, evaluate the early-stopping monitor
and `break` (transition to `STOPPED`) if it fires. -/
def trainGo (R : String → ActFun) (σ : ℕ → Mat → Mat)
    (Xva : Option (Mat × Mat)) : ℕ → ℕ → TSt → TSt
  | 0, _, s => s
  | fuel + 1, e, s =>
      let s1 := runEpoch R (σ e) Xva s
      if Xva.isSome && ((e + 1) % 5 == 0) &&
         earlyStopCheckL s1.net.epsilon (evaOf s1) e then
        { s1 with stopped := true }
      else trainGo R σ Xva fuel (e + 1) s1

/-- The initial state of a `train` call: zero-initialized velocity lists
and freshly reset error histories (`error_per_epochs_va` becomes `[]`
exactly when a validation set is supplied). -/
def trainStart (net : Net) (X y : Mat) (Xva : Option (Mat × Mat)) : TSt :=
  { net := { net with error_per_epochs := [], error_per_epochs_old := []
                      error_per_batch := []
                      error_per_epochs_va := if Xva.isSome then some [] else none }
    vW := List.replicate net.n_layers none
    vb := List.replicate net.n_layers none
    Xc := X, yc := y, stopped := false }

/-- `NeuralNetwork.train`. -/
def train (R : String → ActFun) (σ : ℕ → Mat → Mat) (net : Net)
    (X y : Mat) (Xva : Option (Mat × Mat)) : TSt :=
  trainGo R σ Xva net.epochs 0 (trainStart net X y Xva)

/-- A sequence of `train` calls on the same instance, each with its own
data, optional validation set and shuffle oracle. -/
def trainMany (R : String → ActFun) (net : Net) :
    List ((ℕ → Mat → Mat) × Mat × Mat × Option (Mat × Mat)) → Net
  | [] => net
  | c :: rest => trainMany R ((train R c.1 net c.2.1 c.2.2.1 c.2.2.2).net) rest

/-!
A small heap model for the aliasing claims about the per-epoch shuffle
(lines 322-324): numpy arrays live in a store addressed by allocation
order; `np.hstack` allocates a fresh concatenation, `np.random.shuffle`
mutates its argument in place (outcome oracle `σe`), and the two
`np.hsplit` halves are rebound to the local names `X`, `y` (modelled as
fresh references carrying the halves' contents; the real views alias only
the fresh dataset, never the caller's arrays).
-/

/-- The array store: references are indices into the allocation list. -/
structure Store where
  arrs : List Mat
deriving DecidableEq

/-- Allocate a fresh array, returning its reference. -/
def Store.alloc (s : Store) (m : Mat) : Store × ℕ :=
  ({ arrs := s.arrs ++ [m] }, s.arrs.length)

/-- Read an array through a reference. -/
def Store.read (s : Store) (r : ℕ) : Mat := s.arrs.getD r []

/-- In-place mutation of the array behind a reference. -/
def Store.write (s : Store) (r : ℕ) (m : Mat) : Store :=
  { arrs := s.arrs.set r m }

/-- Lines 322-324 of `train` in the heap model:
`dataset = np.hstack((X, y))` (fresh allocation),
`np.random.shuffle(dataset)` (in-place write through the fresh
reference), `X, y = np.hsplit(dataset, [X.shape[1]])` (rebinding the
locals to the halves). -/
def shuffleStepH (σe : Mat → Mat) (s : Store) (rX ry : ℕ) :
    Store × ℕ × ℕ :=
  let d := hstackM (s.read rX) (s.read ry)
  let p1 := s.alloc d
  let s2 := p1.1.write p1.2 (σe (p1.1.read p1.2))
  let k := numCols (s.read rX)
  let p2 := s2.alloc ((s2.read p1.2).map (fun r => r.take k))
  let p3 := p2.1.alloc ((p2.1.read p1.2).map (fun r => r.drop k))
  (p3.1, p2.2, p3.2)

/-- The per-epoch iteration of the shuffle step: each epoch shuffles the
locals rebound by the previous epoch. -/
def shuffleEpochsH : List (Mat → Mat) → Store → ℕ → ℕ → Store × ℕ × ℕ
  | [], s, rX, ry => (s, rX, ry)
  | σe :: rest, s, rX, ry =>
      let t := shuffleStepH σe s rX ry
      shuffleEpochsH rest t.1 t.2.1 t.2.2

/-! Basic list and matrix lemmas. -/

theorem getD_set_self {α : Type} (l : List α) (i : ℕ) (a d : α)
    (h : i < l.length) : (l.set i a).getD i d = a := by
  simp [List.getD_eq_getElem?_getD, List.getElem?_set_self h]

theorem getD_set_ne {α : Type} (l : List α) (i j : ℕ) (a d : α)
    (h : i ≠ j) : (l.set i a).getD j d = l.getD j d := by
  simp [List.getD_eq_getElem?_getD, List.getElem?_set_ne h]

theorem bcastRow_comm (r s : List ℚ) : bcastRow r s = bcastRow s r := by
  unfold bcastRow
  by_cases h1 : r.length = 1
  · by_cases h2 : s.length = 1
    · obtain ⟨a, ha⟩ := List.length_eq_one.mp h1
      obtain ⟨c, hc⟩ := List.length_eq_one.mp h2
      subst ha; subst hc; simp [add_comm]
    · simp [h1, h2, add_comm]
  · by_cases h2 : s.length = 1
    · simp [h1, h2, add_comm]
    · simp only [h1, h2, if_false]
      exact List.zipWith_comm_of_comm _ (fun p q => add_comm p q) r s

theorem npAdd_comm (A B : Mat) : npAdd A B = npAdd B A := by
  unfold npAdd
  exact List.zipWith_comm_of_comm _ bcastRow_comm A B

/-! Characterization of the forward layer loop. -/

theorem forwardLists_length (R : String → ActFun) (W b : List Mat)
    (acts : List String) (task : String) (nl : ℕ) (x : Mat) (k : ℕ) :
    (forwardLists R W b acts task nl x k).1.length = k ∧
    (forwardLists R W b acts task nl x k).2.length = k := by
  induction k with
  | zero => simp [forwardLists]
  | succ k ih => simp [forwardLists, ih.1, ih.2]

theorem forwardLists_getD_mono (R : String → ActFun) (W b : List Mat)
    (acts : List String) (task : String) (nl : ℕ) (x : Mat)
    (i K : ℕ) (hiK : i < K) :
    (forwardLists R W b acts task nl x K).1.getD i [] =
      (forwardLists R W b acts task nl x (i + 1)).1.getD i [] ∧
    (forwardLists R W b acts task nl x K).2.getD i [] =
      (forwardLists R W b acts task nl x (i + 1)).2.getD i [] := by
  induction K with
  | zero => omega
  | succ K ih =>
      rcases Nat.lt_succ_iff_lt_or_eq.mp hiK with h | h
      · have hl := forwardLists_length R W b acts task nl x K
        have h1 : i < (forwardLists R W b acts task nl x K).1.length := by
          rw [hl.1]; exact h
        have h2 : i < (forwardLists R W b acts task nl x K).2.length := by
          rw [hl.2]; exact h
        constructor
        · show ((forwardLists R W b acts task nl x K).1 ++ _).getD i [] = _
          rw [List.getD_append _ _ _ _ h1]; exact (ih h).1
        · show ((forwardLists R W b acts task nl x K).2 ++ _).getD i [] = _
          rw [List.getD_append _ _ _ _ h2]; exact (ih h).2
      · subst h; exact ⟨rfl, rfl⟩

/-- The `a` entry produced at layer `i` by the forward loop. -/
def aAt (R : String → ActFun) (W b : List Mat) (acts : List String)
    (task : String) (nl : ℕ) (x : Mat) (i : ℕ) : Mat :=
  (forwardLists R W b acts task nl x (i + 1)).1.getD i []

/-- The `h` entry produced at layer `i` by the forward loop. -/
def hAt (R : String → ActFun) (W b : List Mat) (acts : List String)
    (task : String) (nl : ℕ) (x : Mat) (i : ℕ) : Mat :=
  (forwardLists R W b acts task nl x (i + 1)).2.getD i []

theorem aAt_raw (R : String → ActFun) (W b : List Mat) (acts : List String)
    (task : String) (nl : ℕ) (x : Mat) (i : ℕ) :
    aAt R W b acts task nl x i =
      npAdd (b.getD i [])
        (matMul (W.getD i [])
          (if i = 0 then matTranspose x
           else (forwardLists R W b acts task nl x i).2.getD (i - 1) [])) := by
  have hl := forwardLists_length R W b acts task nl x i
  unfold aAt
  show ((forwardLists R W b acts task nl x i).1 ++ [_]).getD i [] = _
  rw [List.getD_append_right _ _ _ _ (le_of_eq hl.1), hl.1]
  simp

theorem aAt_eq (R : String → ActFun) (W b : List Mat) (acts : List String)
    (task : String) (nl : ℕ) (x : Mat) (i : ℕ) :
    aAt R W b acts task nl x i =
      npAdd (b.getD i [])
        (matMul (W.getD i [])
          (if i = 0 then matTranspose x
           else hAt R W b acts task nl x (i - 1))) := by
  rw [aAt_raw]
  cases i with
  | zero => simp
  | succ s => simp [hAt]

theorem hAt_eq (R : String → ActFun) (W b : List Mat) (acts : List String)
    (task : String) (nl : ℕ) (x : Mat) (i : ℕ) :
    hAt R W b acts task nl x i =
      (if task = "classifier" ∨ i ≠ nl - 1 then
        mapMat (R (acts.getD i "")).f (aAt R W b acts task nl x i)
       else aAt R W b acts task nl x i) := by
  have hl := forwardLists_length R W b acts task nl x i
  rw [aAt_raw]
  unfold hAt
  show ((forwardLists R W b acts task nl x i).2 ++ [_]).getD i [] = _
  rw [List.getD_append_right _ _ _ _ (le_of_eq hl.2), hl.2]
  simp

/-- C3: on networks with a valid task, `forward_propagation` computes, for
each layer `l` from 0 to the last, `a[l] = b[l] + W[l]·(xᵀ if l = 0 else
h[l-1])` and `h[l] = activation_l(a[l])`, except that when the task is
regression and `l` is the final layer `h[l] = a[l]` regardless of the
configured activation name; it returns the scalar mean squared error
between `h[last]ᵀ` and `y`, and mutates no state other than the per-layer
cache `(a, h)` (the result is `net` with only `a` and `h` replaced). -/
theorem forward_propagation_contract (R : String → ActFun) (net : Net)
    (x y : Mat) (htask : net.task = "classifier" ∨ net.task = "regression") :
    (forward_propagation R net x y).1 =
      { net with a := (forward_propagation R net x y).1.a,
                 h := (forward_propagation R net x y).1.h } ∧
    (forward_propagation R net x y).1.a.length = net.n_layers ∧
    (forward_propagation R net x y).1.h.length = net.n_layers ∧
    (∀ i, i < net.n_layers →
      (forward_propagation R net x y).1.a.getD i [] =
        npAdd (net.b.getD i [])
          (matMul (net.W.getD i [])
            (if i = 0 then matTranspose x
             else (forward_propagation R net x y).1.h.getD (i - 1) [])) ∧
      (forward_propagation R net x y).1.h.getD i [] =
        (if net.task = "regression" ∧ i = net.n_layers - 1 then
          (forward_propagation R net x y).1.a.getD i []
         else mapMat (R (net.activation.getD i "")).f
           ((forward_propagation R net x y).1.a.getD i []))) ∧
    (forward_propagation R net x y).2 =
      mean_squared_error
        (matTranspose (lastD (forward_propagation R net x y).1.h [])) y := by
  have hfa : (forward_propagation R net x y).1.a =
      (forwardLists R net.W net.b net.activation net.task net.n_layers x
        net.n_layers).1 := rfl
  have hfh : (forward_propagation R net x y).1.h =
      (forwardLists R net.W net.b net.activation net.task net.n_layers x
        net.n_layers).2 := rfl
  have hlen := forwardLists_length R net.W net.b net.activation net.task
    net.n_layers x net.n_layers
  refine ⟨rfl, by rw [hfa]; exact hlen.1, by rw [hfh]; exact hlen.2, ?_, ?_⟩
  · intro i hi
    have ha : (forward_propagation R net x y).1.a.getD i [] =
        aAt R net.W net.b net.activation net.task net.n_layers x i := by
      rw [hfa]
      exact (forwardLists_getD_mono R net.W net.b net.activation net.task
        net.n_layers x i net.n_layers hi).1
    have hh : (forward_propagation R net x y).1.h.getD i [] =
        hAt R net.W net.b net.activation net.task net.n_layers x i := by
      rw [hfh]
      exact (forwardLists_getD_mono R net.W net.b net.activation net.task
        net.n_layers x i net.n_layers hi).2
    constructor
    · rw [ha, aAt_eq]
      by_cases h0 : i = 0
      · simp [h0]
      · have hh1 : (forward_propagation R net x y).1.h.getD (i - 1) [] =
            hAt R net.W net.b net.activation net.task net.n_layers x (i - 1) := by
          rw [hfh]
          exact (forwardLists_getD_mono R net.W net.b net.activation net.task
            net.n_layers x (i - 1) net.n_layers
            (lt_of_le_of_lt (Nat.pred_le i) hi)).2
        rw [hh1]
    · rw [hh, hAt_eq, ha]
      rcases htask with hc | hr
      · have : net.task ≠ "regression" := by rw [hc]; decide
        simp [hc, this]
      · have : net.task ≠ "classifier" := by rw [hr]; decide
        by_cases hlast : i = net.n_layers - 1 <;> simp [hr, hlast, this]
  · show mean_squared_error (matTranspose
        ((forwardLists R net.W net.b net.activation net.task net.n_layers x
          net.n_layers).2.getD (net.n_layers - 1) [])) y = _
    rw [lastD, hfh, hlen.2]

/-- A default network value (only used as the `Except.getD`-style fallback
when reading the result of a construction that is proved to succeed). -/
def dfltNet : Net :=
  { hidden_sizes := [], n_layers := 0, topology := [], eta := 0, alpha := 0,
    epsilon := 0, batch_size := 0, reg_method := "l2", reg_lambda := 0,
    epochs := 0, activation := [], W := [], W_copy := [], b := [], b_copy := [],
    delta_W := [], delta_b := [], a := [], h := [], task := "classifier",
    error_per_epochs := [], error_per_epochs_old := [], error_per_batch := [],
    error_per_epochs_va := none }

/-- Extract the network from a successful construction. -/
def okOrD (e : Except String Net) : Net :=
  match e with
  | .ok n => n
  | .error _ => dfltNet

/-- A trivial shuffle-outcome oracle (valid for one-row datasets, whose
only permutation is the identity). -/
def sigmaId : ℕ → Mat → Mat := fun _ d => d

/-- A small concrete classifier network (2 layers of width 1). -/
def netW3 : Net := okOrD (nnInit [[1]] [[0]] [1] (1/2) 0 (1/10) 3 1 0 "l2"
  (ActArg.str "relu") "classifier" [[[2]], [[1]]] [[[1]], [[0]]])

/-- Witness for the forward-propagation contract: on the concrete
classifier network `netW3` the hypothesis holds and the layer-1 equations
are exactly those of the theorem. -/
theorem forward_propagation_contract_instance :
    (forward_propagation A_Fq netW3 [[1]] [[0]]).1.a.getD 1 [] =
      npAdd (netW3.b.getD 1 [])
        (matMul (netW3.W.getD 1 [])
          (if 1 = 0 then matTranspose [[1]]
           else (forward_propagation A_Fq netW3 [[1]] [[0]]).1.h.getD 0 [])) ∧
    (forward_propagation A_Fq netW3 [[1]] [[0]]).1.h.getD 1 [] =
      (if netW3.task = "regression" ∧ 1 = netW3.n_layers - 1 then
        (forward_propagation A_Fq netW3 [[1]] [[0]]).1.a.getD 1 []
       else mapMat (A_Fq (netW3.activation.getD 1 "")).f
         ((forward_propagation A_Fq netW3 [[1]] [[0]]).1.a.getD 1 [])) :=
  (forward_propagation_contract A_Fq netW3 [[1]] [[0]]
    (Or.inl rfl)).2.2.2.1 1 (by decide)

/-! Predict versus forward: the layer recurrences. -/

theorem mapMat_id (A : Mat) : mapMat (fun q => q) A = A := by
  simp [mapMat]

theorem predictLists_eq_forwardLists (R : String → ActFun) (W b : List Mat)
    (acts : List String) (task : String) (nl : ℕ) (x : Mat)
    (hact : task = "classifier" ∨ (R (acts.getD (nl - 1) "")).f = fun q => q) :
    ∀ k, k ≤ nl →
      predictLists R W b acts x k = forwardLists R W b acts task nl x k := by
  intro k
  induction k with
  | zero => intro _; rfl
  | succ k ih =>
      intro hk
      have heq := ih (Nat.le_of_succ_le hk)
      unfold predictLists forwardLists
      rw [heq]
      dsimp only
      rw [npAdd_comm]
      by_cases hc : task = "classifier" ∨ k ≠ nl - 1
      · simp only [if_pos hc]
      · simp only [if_neg hc]
        push_neg at hc
        rcases hact with h1 | h2
        · exact absurd h1 hc.1
        · rw [hc.2, h2, mapMat_id]

/-! Frame lemmas: which `Net` fields each engine step leaves untouched. -/

/-- The configuration and snapshot fields that no step of `train` writes. -/
def frameCore (t s : Net) : Prop :=
  t.W_copy = s.W_copy ∧ t.b_copy = s.b_copy ∧ t.task = s.task ∧
  t.activation = s.activation ∧ t.n_layers = s.n_layers ∧
  t.epsilon = s.epsilon ∧ t.batch_size = s.batch_size ∧
  t.eta = s.eta ∧ t.alpha = s.alpha ∧ t.reg_method = s.reg_method ∧
  t.reg_lambda = s.reg_lambda ∧ t.epochs = s.epochs ∧
  t.hidden_sizes = s.hidden_sizes ∧ t.topology = s.topology

/-- Additionally, the batch-level steps leave the epoch-level error
histories untouched. -/
def frameBatch (t s : Net) : Prop :=
  frameCore t s ∧ t.error_per_epochs = s.error_per_epochs ∧
  t.error_per_epochs_old = s.error_per_epochs_old ∧
  t.error_per_epochs_va = s.error_per_epochs_va

theorem frameCore_rfl (s : Net) : frameCore s s :=
  ⟨rfl, rfl, rfl, rfl, rfl, rfl, rfl, rfl, rfl, rfl, rfl, rfl, rfl, rfl⟩

theorem frameCore_trans {a c b : Net} (h1 : frameCore a b) (h2 : frameCore b c) :
    frameCore a c := by
  unfold frameCore at *
  obtain ⟨e1, e2, e3, e4, e5, e6, e7, e8, e9, e10, e11, e12, e13, e14⟩ := h1
  obtain ⟨f1, f2, f3, f4, f5, f6, f7, f8, f9, f10, f11, f12, f13, f14⟩ := h2
  exact ⟨e1.trans f1, e2.trans f2, e3.trans f3, e4.trans f4, e5.trans f5,
    e6.trans f6, e7.trans f7, e8.trans f8, e9.trans f9, e10.trans f10,
    e11.trans f11, e12.trans f12, e13.trans f13, e14.trans f14⟩

theorem frameBatch_rfl (s : Net) : frameBatch s s :=
  ⟨frameCore_rfl s, rfl, rfl, rfl⟩

theorem frameBatch_trans {a c b : Net} (h1 : frameBatch a b)
    (h2 : frameBatch b c) : frameBatch a c :=
  ⟨frameCore_trans h1.1 h2.1, h1.2.1.trans h2.2.1,
   h1.2.2.1.trans h2.2.2.1, h1.2.2.2.trans h2.2.2.2⟩

theorem forward_propagation_frame (R : String → ActFun) (net : Net)
    (x y : Mat) : frameBatch (forward_propagation R net x y).1 net :=
  frameBatch_rfl net

theorem back_propagation_frame (R : String → ActFun) (net : Net)
    (x y : Mat) : frameBatch (back_propagation R net x y) net ∧
      (back_propagation R net x y).W = net.W ∧
      (back_propagation R net x y).b = net.b ∧
      (back_propagation R net x y).a = net.a ∧
      (back_propagation R net x y).h = net.h ∧
      (back_propagation R net x y).error_per_batch = net.error_per_batch := by
  unfold back_propagation
  cases hn : net.n_layers with
  | zero => exact ⟨frameBatch_rfl net, rfl, rfl, rfl, rfl, rfl⟩
  | succ n =>
      dsimp only
      exact ⟨⟨⟨rfl, rfl, rfl, rfl, hn.symm, rfl, rfl, rfl, rfl, rfl, rfl, rfl,
        rfl, rfl⟩, rfl, rfl, rfl⟩, rfl, rfl, rfl, rfl, rfl⟩

theorem processBatch_frame (R : String → ActFun) (s : TSt) (xb yb : Mat) :
    frameBatch (processBatch R s xb yb).1.net s.net ∧
    (processBatch R s xb yb).1.Xc = s.Xc ∧
    (processBatch R s xb yb).1.yc = s.yc ∧
    (processBatch R s xb yb).1.stopped = s.stopped := by
  refine ⟨?_, rfl, rfl, rfl⟩
  show frameBatch { back_propagation R
      { (forward_propagation R s.net xb yb).1 with
        error_per_batch := (forward_propagation R s.net xb yb).1.error_per_batch
          ++ [(forward_propagation R s.net xb yb).2] } xb yb with
      W := _, b := _ } s.net
  refine frameBatch_trans (b := back_propagation R
      { (forward_propagation R s.net xb yb).1 with
        error_per_batch := (forward_propagation R s.net xb yb).1.error_per_batch
          ++ [(forward_propagation R s.net xb yb).2] } xb yb) ?_ ?_
  · exact frameBatch_rfl _
  · refine frameBatch_trans (b := { (forward_propagation R s.net xb yb).1 with
        error_per_batch := (forward_propagation R s.net xb yb).1.error_per_batch
          ++ [(forward_propagation R s.net xb yb).2] }) ?_ ?_
    · exact (back_propagation_frame R _ xb yb).1
    · exact frameBatch_trans (b := (forward_propagation R s.net xb yb).1)
        (frameBatch_rfl _) (forward_propagation_frame R s.net xb yb)

theorem processBatches_frame (R : String → ActFun) (bs : ℕ) (X' y' : Mat) :
    ∀ (starts : List ℕ) (s : TSt) (errs : List ℚ),
    frameBatch (processBatches R bs X' y' starts (s, errs)).1.net s.net ∧
    (processBatches R bs X' y' starts (s, errs)).1.Xc = s.Xc ∧
    (processBatches R bs X' y' starts (s, errs)).1.yc = s.yc ∧
    (processBatches R bs X' y' starts (s, errs)).1.stopped = s.stopped := by
  intro starts
  induction starts with
  | nil => intro s errs; exact ⟨frameBatch_rfl s.net, rfl, rfl, rfl⟩
  | cons st rest ih =>
      intro s errs
      have hb := processBatch_frame R s ((X'.drop st).take bs) ((y'.drop st).take bs)
      have hr := ih (processBatch R s ((X'.drop st).take bs) ((y'.drop st).take bs)).1
        (errs ++ [(processBatch R s ((X'.drop st).take bs) ((y'.drop st).take bs)).2])
      exact ⟨frameBatch_trans hr.1 hb.1, hr.2.1.trans hb.2.1,
        hr.2.2.1.trans hb.2.2.1, hr.2.2.2.trans hb.2.2.2⟩

theorem runEpoch_frame (R : String → ActFun) (σe : Mat → Mat)
    (Xva : Option (Mat × Mat)) (s : TSt) :
    frameCore (runEpoch R σe Xva s).net s.net ∧
    (runEpoch R σe Xva s).stopped = s.stopped := by
  unfold runEpoch
  cases Xva with
  | none =>
      dsimp only
      have h := processBatches_frame R s.net.batch_size
        ((σe (hstackM s.Xc s.yc)).map (fun r => r.take (numCols s.Xc)))
        ((σe (hstackM s.Xc s.yc)).map (fun r => r.drop (numCols s.Xc)))
        (batchStarts ((σe (hstackM s.Xc s.yc)).map
          (fun r => r.take (numCols s.Xc))).length s.net.batch_size)
        { s with Xc := (σe (hstackM s.Xc s.yc)).map (fun r => r.take (numCols s.Xc)),
                 yc := (σe (hstackM s.Xc s.yc)).map (fun r => r.drop (numCols s.Xc)) }
        []
      exact ⟨frameCore_trans ⟨rfl, rfl, rfl, rfl, rfl, rfl, rfl, rfl, rfl, rfl,
        rfl, rfl, rfl, rfl⟩ h.1.1, h.2.2.2⟩
  | some q =>
      dsimp only
      have h := processBatches_frame R s.net.batch_size
        ((σe (hstackM s.Xc s.yc)).map (fun r => r.take (numCols s.Xc)))
        ((σe (hstackM s.Xc s.yc)).map (fun r => r.drop (numCols s.Xc)))
        (batchStarts ((σe (hstackM s.Xc s.yc)).map
          (fun r => r.take (numCols s.Xc))).length s.net.batch_size)
        { s with Xc := (σe (hstackM s.Xc s.yc)).map (fun r => r.take (numCols s.Xc)),
                 yc := (σe (hstackM s.Xc s.yc)).map (fun r => r.drop (numCols s.Xc)) }
        []
      exact ⟨frameCore_trans ⟨rfl, rfl, rfl, rfl, rfl, rfl, rfl, rfl, rfl, rfl,
        rfl, rfl, rfl, rfl⟩ h.1.1, h.2.2.2⟩

theorem trainGo_frame (R : String → ActFun) (σ : ℕ → Mat → Mat)
    (Xva : Option (Mat × Mat)) :
    ∀ (fuel e : ℕ) (s : TSt),
    frameCore (trainGo R σ Xva fuel e s).net s.net := by
  intro fuel
  induction fuel with
  | zero => intro e s; exact frameCore_rfl s.net
  | succ fuel ih =>
      intro e s
      unfold trainGo
      dsimp only
      split
      · exact (runEpoch_frame R (σ e) Xva s).1
      · exact frameCore_trans (ih (e + 1) (runEpoch R (σ e) Xva s))
          (runEpoch_frame R (σ e) Xva s).1

theorem train_frame (R : String → ActFun) (σ : ℕ → Mat → Mat) (net : Net)
    (X y : Mat) (Xva : Option (Mat × Mat)) :
    frameCore (train R σ net X y Xva).net net := by
  have h := trainGo_frame R σ Xva net.epochs 0 (trainStart net X y Xva)
  exact frameCore_trans h
    ⟨rfl, rfl, rfl, rfl, rfl, rfl, rfl, rfl, rfl, rfl, rfl, rfl, rfl, rfl⟩

/-- C6 (amended): `predict` runs the forward layer recurrence applying
the configured activation at every layer — it contains no regression
last-layer identity passthrough — as a pure function of the current
weights, biases and activation assignment.  Consequently, immediately
after `train()` it reproduces `h[last]ᵀ` of the Forward Engine's
recurrence evaluated at the post-training weights whenever the final
layer's configured activation agrees with forward's final-layer rule
(classifier task, or an activation resolving to the identity function,
as happens for every single-name regression configuration). -/
theorem predict_after_train_amended (R : String → ActFun) (σ : ℕ → Mat → Mat)
    (net : Net) (X y z : Mat) (Xva : Option (Mat × Mat))
    (hact : net.task = "classifier" ∨
      (R (net.activation.getD (net.n_layers - 1) "")).f = fun q => q) :
    predict R (train R σ net X y Xva).net z =
      matTranspose ((forwardLists R (train R σ net X y Xva).net.W
        (train R σ net X y Xva).net.b (train R σ net X y Xva).net.activation
        (train R σ net X y Xva).net.task (train R σ net X y Xva).net.n_layers z
        (train R σ net X y Xva).net.n_layers).2.getD
          ((train R σ net X y Xva).net.n_layers - 1) []) ∧
    predict R (train R σ net X y Xva).net z =
      predictWB R (train R σ net X y Xva).net.W (train R σ net X y Xva).net.b
        (train R σ net X y Xva).net.activation
        (train R σ net X y Xva).net.n_layers z := by
  have hf := train_frame R σ net X y Xva
  have hact' : (train R σ net X y Xva).net.task = "classifier" ∨
      (R ((train R σ net X y Xva).net.activation.getD
        ((train R σ net X y Xva).net.n_layers - 1) "")).f = fun q => q := by
    rw [hf.2.2.1, hf.2.2.2.1, hf.2.2.2.2.1]
    exact hact
  constructor
  · show matTranspose (((predictLists R (train R σ net X y Xva).net.W
        (train R σ net X y Xva).net.b (train R σ net X y Xva).net.activation z
        (train R σ net X y Xva).net.n_layers)).2.getD
          ((train R σ net X y Xva).net.n_layers - 1) []) = _
    rw [predictLists_eq_forwardLists R (train R σ net X y Xva).net.W
      (train R σ net X y Xva).net.b (train R σ net X y Xva).net.activation
      (train R σ net X y Xva).net.task (train R σ net X y Xva).net.n_layers z
      hact' (train R σ net X y Xva).net.n_layers le_rfl]
  · rfl

/-- Witness for the amended predict/train theorem on the concrete
classifier network `netW3`. -/
theorem predict_after_train_amended_instance :
    netW3.task = "classifier" ∧
    predict A_Fq (train A_Fq sigmaId netW3 [[1]] [[0]] none).net [[1]] =
      matTranspose ((forwardLists A_Fq
        (train A_Fq sigmaId netW3 [[1]] [[0]] none).net.W
        (train A_Fq sigmaId netW3 [[1]] [[0]] none).net.b
        (train A_Fq sigmaId netW3 [[1]] [[0]] none).net.activation
        (train A_Fq sigmaId netW3 [[1]] [[0]] none).net.task
        (train A_Fq sigmaId netW3 [[1]] [[0]] none).net.n_layers [[1]]
        (train A_Fq sigmaId netW3 [[1]] [[0]] none).net.n_layers).2.getD
          ((train A_Fq sigmaId netW3 [[1]] [[0]] none).net.n_layers - 1) []) :=
  ⟨rfl, (predict_after_train_amended A_Fq sigmaId netW3 [[1]] [[0]] [[1]] none
    (Or.inl rfl)).1⟩

/-- A concrete regression network whose activation list ends in `relu`:
the discrepancy witness for claim C6. -/
def netC6 : Net := okOrD (nnInit [[1]] [[0]] [1] 0 0 (1/10) 1 1 0 "l2"
  (ActArg.listOf ["relu", "relu"]) "regression" [[[-1]], [[1]]] [[[0]], [[-2]]])

/-- C6 counterexample: for the regression network `netC6` (activation
list `["relu", "relu"]`, learning rate 0 so training leaves the weights
unchanged, one epoch, one single-row batch equal to the whole `X`),
`predict(X)` immediately after `train` on the same `X` differs from
`h[last]ᵀ` of training's final forward pass: the forward pass bypasses
the last-layer activation for the regression task (`h[last] = a[last] =
[[-2]]`) while `predict` applies `relu` to it and returns `[[0]]`. -/
theorem predict_train_passthrough_cex :
    predict A_Fq (train A_Fq sigmaId netC6 [[1]] [[0]] none).net [[1]] ≠
      matTranspose (lastD (train A_Fq sigmaId netC6 [[1]] [[0]] none).net.h []) := by
  with_unfolding_all decide

/-! Claim C1: the reverse traversal of `back_propagation`. -/

/-- The claim's reverse-traversal gradient: starting from layer `l` with
incoming gradient `g`, the value of `g` at layer `j ≤ l` after the
elementwise product with the activation derivative at the cached
pre-activation `a[j]`; between layers `g` is propagated as `W[l]ᵀ · g`.
No division (in particular none by the batch size) occurs anywhere in
this recursion. -/
def gAtLayer (R : String → ActFun) (W : List Mat) (acts : List String)
    (aC : List Mat) : ℕ → Mat → ℕ → Mat
  | 0, g, _ => hadamard g (mapMat (R (acts.getD 0 "")).fdev (aC.getD 0 []))
  | l + 1, g, j =>
      let g1 := hadamard g
        (mapMat (R (acts.getD (l + 1) "")).fdev (aC.getD (l + 1) []))
      if j = l + 1 then g1
      else gAtLayer R W acts aC l (matMul (matTranspose (W.getD (l + 1) [])) g1) j

theorem gAtLayer_zero (R : String → ActFun) (W : List Mat)
    (acts : List String) (aC : List Mat) (g : Mat) (j : ℕ) :
    gAtLayer R W acts aC 0 g j =
      hadamard g (mapMat (R (acts.getD 0 "")).fdev (aC.getD 0 [])) := rfl

theorem gAtLayer_succ (R : String → ActFun) (W : List Mat)
    (acts : List String) (aC : List Mat) (l : ℕ) (g : Mat) (j : ℕ) :
    gAtLayer R W acts aC (l + 1) g j =
      (if j = l + 1 then
        hadamard g (mapMat (R (acts.getD (l + 1) "")).fdev (aC.getD (l + 1) []))
       else gAtLayer R W acts aC l
         (matMul (matTranspose (W.getD (l + 1) []))
           (hadamard g (mapMat (R (acts.getD (l + 1) "")).fdev
             (aC.getD (l + 1) [])))) j) := rfl

theorem backGo_frame (R : String → ActFun) (W : List Mat)
    (acts : List String) (aC hC : List Mat) (x : Mat) :
    ∀ (l : ℕ) (g : Mat) (dWs dbs : List Mat) (j : ℕ), l < j →
      (backGo R W acts aC hC x l g dWs dbs).1.getD j [] = dWs.getD j [] ∧
      (backGo R W acts aC hC x l g dWs dbs).2.getD j [] = dbs.getD j [] := by
  intro l
  induction l with
  | zero =>
      intro g dWs dbs j hj
      unfold backGo
      exact ⟨getD_set_ne _ _ _ _ _ (by omega), getD_set_ne _ _ _ _ _ (by omega)⟩
  | succ l ih =>
      intro g dWs dbs j hj
      unfold backGo
      dsimp only
      have h := ih
        (matMul (matTranspose (W.getD (l + 1) []))
          (hadamard g (mapMat (R (acts.getD (l + 1) "")).fdev
            (aC.getD (l + 1) []))))
        (dWs.set (l + 1)
          (matMul (hadamard g (mapMat (R (acts.getD (l + 1) "")).fdev
              (aC.getD (l + 1) [])))
            (matTranspose (hC.getD l []))))
        (dbs.set (l + 1)
          (rowSumCol (hadamard g (mapMat (R (acts.getD (l + 1) "")).fdev
            (aC.getD (l + 1) [])))))
        j (by omega)
      rw [h.1, h.2,
        getD_set_ne _ _ _ _ _ (by omega : l + 1 ≠ j),
        getD_set_ne _ _ _ _ _ (by omega : l + 1 ≠ j)]
      exact ⟨rfl, rfl⟩

theorem backGo_getD (R : String → ActFun) (W : List Mat)
    (acts : List String) (aC hC : List Mat) (x : Mat) :
    ∀ (l : ℕ) (g : Mat) (dWs dbs : List Mat),
      l < dWs.length → l < dbs.length →
      ∀ j, j ≤ l →
      (backGo R W acts aC hC x l g dWs dbs).2.getD j [] =
        rowSumCol (gAtLayer R W acts aC l g j) ∧
      (backGo R W acts aC hC x l g dWs dbs).1.getD j [] =
        matMul (gAtLayer R W acts aC l g j)
          (if j = 0 then x else matTranspose (hC.getD (j - 1) [])) := by
  intro l
  induction l with
  | zero =>
      intro g dWs dbs hlW hlb j hj
      interval_cases j
      unfold backGo
      rw [gAtLayer_zero]
      exact ⟨getD_set_self _ _ _ _ hlb, by
        rw [getD_set_self _ _ _ _ hlW]; simp⟩
  | succ l ih =>
      intro g dWs dbs hlW hlb j hj
      unfold backGo
      dsimp only
      rcases Nat.lt_succ_iff_lt_or_eq.mp (Nat.lt_succ_of_le hj) with hlt | heq
      · have hfr := ih
          (matMul (matTranspose (W.getD (l + 1) []))
            (hadamard g (mapMat (R (acts.getD (l + 1) "")).fdev
              (aC.getD (l + 1) []))))
          (dWs.set (l + 1)
            (matMul (hadamard g (mapMat (R (acts.getD (l + 1) "")).fdev
                (aC.getD (l + 1) [])))
              (matTranspose (hC.getD l []))))
          (dbs.set (l + 1)
            (rowSumCol (hadamard g (mapMat (R (acts.getD (l + 1) "")).fdev
              (aC.getD (l + 1) [])))))
          (by rw [List.length_set]; omega) (by rw [List.length_set]; omega)
          j (by omega)
        rw [hfr.1, hfr.2, gAtLayer_succ, if_neg (by omega : ¬ j = l + 1)]
        exact ⟨rfl, rfl⟩
      · subst heq
        have hfr := backGo_frame R W acts aC hC x l
          (matMul (matTranspose (W.getD (l + 1) []))
            (hadamard g (mapMat (R (acts.getD (l + 1) "")).fdev
              (aC.getD (l + 1) []))))
          (dWs.set (l + 1)
            (matMul (hadamard g (mapMat (R (acts.getD (l + 1) "")).fdev
                (aC.getD (l + 1) [])))
              (matTranspose (hC.getD l []))))
          (dbs.set (l + 1)
            (rowSumCol (hadamard g (mapMat (R (acts.getD (l + 1) "")).fdev
              (aC.getD (l + 1) [])))))
          (l + 1) (by omega)
        rw [hfr.1, hfr.2,
          getD_set_self _ _ _ _ hlW, getD_set_self _ _ _ _ hlb,
          gAtLayer_succ, if_pos rfl, if_neg (by omega : ¬ l + 1 = 0)]
        exact ⟨rfl, by simp⟩

/-! Shape lemmas. -/

theorem IsMat_mapMat {A : Mat} {r c : ℕ} (f : ℚ → ℚ) (h : IsMat A r c) :
    IsMat (mapMat f A) r c := by
  obtain ⟨hl, hr⟩ := h
  refine ⟨by simp [mapMat, hl], ?_⟩
  intro row hrow
  simp only [mapMat, List.mem_map] at hrow
  obtain ⟨row0, h0, hrow0⟩ := hrow
  rw [← hrow0]
  simp [hr row0 h0]

theorem IsMat_zip2 (f : ℚ → ℚ → ℚ) :
    ∀ (A B : Mat) (r c : ℕ), IsMat A r c → IsMat B r c →
    IsMat (List.zipWith (fun u v => List.zipWith f u v) A B) r c := by
  intro A
  induction A with
  | nil =>
      intro B r c hA hB
      obtain ⟨hl, _⟩ := hA
      simp only [List.length_nil] at hl
      subst hl
      exact ⟨by simp, by simp⟩
  | cons a A ih =>
      intro B r c hA hB
      obtain ⟨hl, hrowA⟩ := hA
      obtain ⟨hlB, hrowB⟩ := hB
      cases B with
      | nil =>
          exfalso
          simp only [List.length_nil] at hlB
          simp only [List.length_cons] at hl
          omega
      | cons bb B =>
          cases r with
          | zero => simp at hl
          | succ r =>
              have hA' : IsMat A r c :=
                ⟨by simpa using hl, fun row hrow => hrowA row (by simp [hrow])⟩
              have hB' : IsMat B r c :=
                ⟨by simpa using hlB, fun row hrow => hrowB row (by simp [hrow])⟩
              have hrec := ih B r c hA' hB'
              refine ⟨by simp [hrec.1], ?_⟩
              intro row hrow
              simp only [List.zipWith_cons_cons, List.mem_cons] at hrow
              rcases hrow with hrow | hrow
              · rw [hrow]
                simp [hrowA a (by simp), hrowB bb (by simp)]
              · exact hrec.2 row hrow

theorem IsMat_matSub {A B : Mat} {r c : ℕ} (hA : IsMat A r c)
    (hB : IsMat B r c) : IsMat (matSub A B) r c :=
  IsMat_zip2 _ A B r c hA hB

theorem IsMat_hadamard {A B : Mat} {r c : ℕ} (hA : IsMat A r c)
    (hB : IsMat B r c) : IsMat (hadamard A B) r c :=
  IsMat_zip2 _ A B r c hA hB

theorem IsMat_transpose {A : Mat} {r c : ℕ} (h : IsMat A r c) (hr : 0 < r) :
    IsMat (matTranspose A) c r := by
  obtain ⟨hl, hrow⟩ := h
  cases A with
  | nil => simp at hl; omega
  | cons a A =>
      have hac : a.length = c := hrow a (by simp)
      refine ⟨by simp [matTranspose, hac], ?_⟩
      intro row hrowm
      simp only [matTranspose, List.mem_map] at hrowm
      obtain ⟨j, _, hj⟩ := hrowm
      rw [← hj]
      simpa using hl

theorem IsMat_matMul {A B : Mat} {r k c : ℕ} (hA : IsMat A r k)
    (hB : IsMat B k c) (hk : 0 < k) : IsMat (matMul A B) r c := by
  have hBt := IsMat_transpose hB hk
  refine ⟨by simp [matMul, hA.1], ?_⟩
  intro row hrow
  simp only [matMul, List.mem_map] at hrow
  obtain ⟨row0, _, hrow0⟩ := hrow
  rw [← hrow0]
  simp [hBt.1]

theorem IsMat_rowSumCol {G : Mat} {r c : ℕ} (h : IsMat G r c) :
    IsMat (rowSumCol G) r 1 := by
  refine ⟨by simp [rowSumCol, h.1], ?_⟩
  intro row hrow
  simp only [rowSumCol, List.mem_map] at hrow
  obtain ⟨row0, _, hrow0⟩ := hrow
  rw [← hrow0]
  simp

theorem IsMat_npAdd_bias :
    ∀ (bv M : Mat) (r m : ℕ), IsMat bv r 1 → IsMat M r m →
    IsMat (npAdd bv M) r m := by
  intro bv
  induction bv with
  | nil =>
      intro M r m hb hM
      obtain ⟨hl, _⟩ := hb
      simp only [List.length_nil] at hl
      subst hl
      exact ⟨by simp [npAdd], by simp [npAdd]⟩
  | cons brow bv ih =>
      intro M r m hb hM
      obtain ⟨hl, hrowb⟩ := hb
      obtain ⟨hlM, hrowM⟩ := hM
      cases M with
      | nil => simp only [List.length_nil] at hlM; simp at hl; omega
      | cons mrow M =>
          cases r with
          | zero => simp at hl
          | succ r =>
              have hb' : IsMat bv r 1 :=
                ⟨by simpa using hl, fun row hrow => hrowb row (by simp [hrow])⟩
              have hM' : IsMat M r m :=
                ⟨by simpa using hlM, fun row hrow => hrowM row (by simp [hrow])⟩
              have hrec := ih M r m hb' hM'
              refine ⟨?_, ?_⟩
              · have h1 := hrec.1
                simp only [npAdd, List.length_zipWith] at h1 ⊢
                omega
              intro row hrow
              simp only [npAdd, List.zipWith_cons_cons, List.mem_cons] at hrow
              rcases hrow with hrow | hrow
              · rw [hrow]
                unfold bcastRow
                rw [if_pos (hrowb brow (by simp))]
                simp [hrowM mrow (by simp)]
              · exact hrec.2 row hrow

/-- Shapes of the forward caches: with `v i` the width of layer `i - 1`
(`v 0` the input feature count) and batch size `m`, layer `i` produces
`[v (i+1), m]` pre-activations and activations. -/
theorem forward_shapes (R : String → ActFun) (W b : List Mat)
    (acts : List String) (task : String) (nl : ℕ) (x : Mat)
    (v : ℕ → ℕ) (m : ℕ)
    (hW : ∀ i, i < nl → IsMat (W.getD i []) (v (i + 1)) (v i))
    (hb : ∀ i, i < nl → IsMat (b.getD i []) (v (i + 1)) 1)
    (hx : IsMat x m (v 0)) (hm : 0 < m) (hv : ∀ i, 0 < v i) :
    ∀ i, i < nl →
      IsMat (aAt R W b acts task nl x i) (v (i + 1)) m ∧
      IsMat (hAt R W b acts task nl x i) (v (i + 1)) m := by
  intro i
  induction i with
  | zero =>
      intro hi
      have ha : IsMat (aAt R W b acts task nl x 0) (v 1) m := by
        rw [aAt_eq]
        simp only [if_pos rfl]
        exact IsMat_npAdd_bias _ _ _ _ (hb 0 hi)
          (IsMat_matMul (hW 0 hi) (IsMat_transpose hx hm) (hv 0))
      refine ⟨ha, ?_⟩
      rw [hAt_eq]
      split
      · exact IsMat_mapMat _ ha
      · exact ha
  | succ i ih =>
      intro hi
      have hih := ih (Nat.lt_of_succ_lt hi)
      have ha : IsMat (aAt R W b acts task nl x (i + 1)) (v (i + 2)) m := by
        rw [aAt_eq]
        simp only [Nat.add_sub_cancel, if_neg (Nat.succ_ne_zero i)]
        exact IsMat_npAdd_bias _ _ _ _ (hb (i + 1) hi)
          (IsMat_matMul (hW (i + 1) hi) hih.2 (hv (i + 1)))
      refine ⟨ha, ?_⟩
      rw [hAt_eq]
      split
      · exact IsMat_mapMat _ ha
      · exact ha

/-- Shapes of the claim-side reverse-traversal gradients. -/
theorem gAtLayer_shapes (R : String → ActFun) (W : List Mat)
    (acts : List String) (aC : List Mat) (v : ℕ → ℕ) (m nl : ℕ)
    (hv : ∀ i, 0 < v i) (_hm : 0 < m)
    (hW : ∀ i, i < nl → IsMat (W.getD i []) (v (i + 1)) (v i))
    (ha : ∀ i, i < nl → IsMat (aC.getD i []) (v (i + 1)) m) :
    ∀ l, l < nl → ∀ g, IsMat g (v (l + 1)) m → ∀ j, j ≤ l →
      IsMat (gAtLayer R W acts aC l g j) (v (j + 1)) m := by
  intro l
  induction l with
  | zero =>
      intro hl g hg j hj
      interval_cases j
      rw [gAtLayer_zero]
      exact IsMat_hadamard hg (IsMat_mapMat _ (ha 0 hl))
  | succ l ih =>
      intro hl g hg j hj
      have hg1 : IsMat (hadamard g (mapMat (R (acts.getD (l + 1) "")).fdev
          (aC.getD (l + 1) []))) (v (l + 2)) m :=
        IsMat_hadamard hg (IsMat_mapMat _ (ha (l + 1) hl))
      rw [gAtLayer_succ]
      rcases Nat.lt_succ_iff_lt_or_eq.mp (Nat.lt_succ_of_le hj) with hlt | heq
      · rw [if_neg (by omega : ¬ j = l + 1)]
        exact ih (Nat.lt_of_succ_lt hl)
          (matMul (matTranspose (W.getD (l + 1) [])) _)
          (IsMat_matMul (IsMat_transpose (hW (l + 1) hl) (hv (l + 2))) hg1
            (hv (l + 2)))
          j (by omega)
      · subst heq
        rw [if_pos rfl]
        exact hg1

theorem back_propagation_deltas (R : String → ActFun) (net1 : Net)
    (x y : Mat) (n : ℕ) (hn : net1.n_layers = n + 1) :
    (back_propagation R net1 x y).delta_W =
      (backGo R net1.W net1.activation net1.a net1.h x n
        (mean_squared_error_gradient (lastD net1.h []) (matTranspose y))
        net1.delta_W net1.delta_b).1 ∧
    (back_propagation R net1 x y).delta_b =
      (backGo R net1.W net1.activation net1.a net1.h x n
        (mean_squared_error_gradient (lastD net1.h []) (matTranspose y))
        net1.delta_W net1.delta_b).2 := by
  unfold back_propagation
  rw [hn]
  exact ⟨rfl, rfl⟩

/-- C1: immediately after a forward pass on `(x, y)`, `back_propagation`
computes its gradient caches by the claim's reverse traversal from the
last layer to layer 0: with `g` initialized to the MSE loss gradient at
the network's final output and propagated as `W[l]ᵀ · g` between layers
(the recursion `gAtLayer`, which contains no division whatsoever — in
particular none by the batch size), `delta_b[l]` is the batch-dimension
sum of `g` with shape `[width(l), 1]` and
`delta_W[l] = g · (h[l-1]ᵀ if l > 0 else x)` with shape
`[width(l), width(l-1)]`. -/
theorem back_propagation_reverse_traversal
    (R : String → ActFun) (net : Net) (x y : Mat) (v : ℕ → ℕ) (m : ℕ)
    (hnl : 0 < net.n_layers)
    (hdW : net.delta_W.length = net.n_layers)
    (hdb : net.delta_b.length = net.n_layers)
    (hW : ∀ i, i < net.n_layers → IsMat (net.W.getD i []) (v (i + 1)) (v i))
    (hb : ∀ i, i < net.n_layers → IsMat (net.b.getD i []) (v (i + 1)) 1)
    (hx : IsMat x m (v 0)) (hy : IsMat y m (v net.n_layers))
    (hm : 0 < m) (hv : ∀ i, 0 < v i) :
    ∀ j, j < net.n_layers →
      (back_propagation R (forward_propagation R net x y).1 x y).delta_b.getD
          j [] =
        rowSumCol (gAtLayer R net.W net.activation
          (forward_propagation R net x y).1.a (net.n_layers - 1)
          (mean_squared_error_gradient
            (lastD (forward_propagation R net x y).1.h []) (matTranspose y)) j) ∧
      IsMat ((back_propagation R (forward_propagation R net x y).1 x
          y).delta_b.getD j []) (v (j + 1)) 1 ∧
      (back_propagation R (forward_propagation R net x y).1 x y).delta_W.getD
          j [] =
        matMul (gAtLayer R net.W net.activation
          (forward_propagation R net x y).1.a (net.n_layers - 1)
          (mean_squared_error_gradient
            (lastD (forward_propagation R net x y).1.h []) (matTranspose y)) j)
          (if j = 0 then x
           else matTranspose ((forward_propagation R net x y).1.h.getD
             (j - 1) [])) ∧
      IsMat ((back_propagation R (forward_propagation R net x y).1 x
          y).delta_W.getD j []) (v (j + 1)) (v j) := by
  obtain ⟨n, hn⟩ : ∃ n, net.n_layers = n + 1 :=
    ⟨net.n_layers - 1, (Nat.succ_pred_eq_of_pos hnl).symm⟩
  intro j hj
  have hfa : (forward_propagation R net x y).1.a =
      (forwardLists R net.W net.b net.activation net.task net.n_layers x
        net.n_layers).1 := rfl
  have hfh : (forward_propagation R net x y).1.h =
      (forwardLists R net.W net.b net.activation net.task net.n_layers x
        net.n_layers).2 := rfl
  have hlen := forwardLists_length R net.W net.b net.activation net.task
    net.n_layers x net.n_layers
  have hlast : lastD (forward_propagation R net x y).1.h [] =
      hAt R net.W net.b net.activation net.task net.n_layers x
        (net.n_layers - 1) := by
    rw [lastD, hfh, hlen.2]
    exact (forwardLists_getD_mono R net.W net.b net.activation net.task
      net.n_layers x (net.n_layers - 1) net.n_layers (by omega)).2
  have hg0 : IsMat (mean_squared_error_gradient
      (lastD (forward_propagation R net x y).1.h []) (matTranspose y))
      (v net.n_layers) m := by
    rw [hlast]
    have hsh := forward_shapes R net.W net.b net.activation net.task
      net.n_layers x v m hW hb hx hm hv (net.n_layers - 1) (by omega)
    have he : net.n_layers - 1 + 1 = net.n_layers := by omega
    rw [he] at hsh
    exact IsMat_matSub hsh.2 (IsMat_transpose hy hm)
  have haC : ∀ i, i < net.n_layers →
      IsMat ((forward_propagation R net x y).1.a.getD i []) (v (i + 1)) m := by
    intro i hi
    rw [hfa, (forwardLists_getD_mono R net.W net.b net.activation net.task
      net.n_layers x i net.n_layers hi).1]
    exact (forward_shapes R net.W net.b net.activation net.task net.n_layers
      x v m hW hb hx hm hv i hi).1
  have hhC : ∀ i, i < net.n_layers →
      IsMat ((forward_propagation R net x y).1.h.getD i []) (v (i + 1)) m := by
    intro i hi
    rw [hfh, (forwardLists_getD_mono R net.W net.b net.activation net.task
      net.n_layers x i net.n_layers hi).2]
    exact (forward_shapes R net.W net.b net.activation net.task net.n_layers
      x v m hW hb hx hm hv i hi).2
  have hred := back_propagation_deltas R (forward_propagation R net x y).1
    x y n hn
  have hredW : (back_propagation R (forward_propagation R net x y).1 x
      y).delta_W =
      (backGo R net.W net.activation (forward_propagation R net x y).1.a
        (forward_propagation R net x y).1.h x n
        (mean_squared_error_gradient
          (lastD (forward_propagation R net x y).1.h []) (matTranspose y))
        net.delta_W net.delta_b).1 := hred.1
  have hredb : (back_propagation R (forward_propagation R net x y).1 x
      y).delta_b =
      (backGo R net.W net.activation (forward_propagation R net x y).1.a
        (forward_propagation R net x y).1.h x n
        (mean_squared_error_gradient
          (lastD (forward_propagation R net x y).1.h []) (matTranspose y))
        net.delta_W net.delta_b).2 := hred.2
  have hch := backGo_getD R net.W net.activation
    (forward_propagation R net x y).1.a (forward_propagation R net x y).1.h
    x n
    (mean_squared_error_gradient
      (lastD (forward_propagation R net x y).1.h []) (matTranspose y))
    net.delta_W net.delta_b (by omega) (by omega) j (by omega)
  have hn1 : net.n_layers - 1 = n := by omega
  have hgsh := gAtLayer_shapes R net.W net.activation
    (forward_propagation R net x y).1.a v m net.n_layers hv hm hW haC
    n (by omega)
    (mean_squared_error_gradient
      (lastD (forward_propagation R net x y).1.h []) (matTranspose y))
    (by rw [← hn]; exact hg0) j (by omega)
  rw [hn1]
  refine ⟨?_, ?_, ?_, ?_⟩
  · rw [hredb]; exact hch.1
  · rw [hredb, hch.1]
    exact IsMat_rowSumCol hgsh
  · rw [hredW]; exact hch.2
  · rw [hredW, hch.2]
    by_cases h0 : j = 0
    · subst h0
      rw [if_pos rfl]
      exact IsMat_matMul hgsh hx hm
    · rw [if_neg h0]
      have hj1 : j - 1 + 1 = j := Nat.succ_pred_eq_of_pos (Nat.pos_of_ne_zero h0)
      have hh := hhC (j - 1) (by omega)
      rw [hj1] at hh
      exact IsMat_matMul hgsh (IsMat_transpose hh (hv j)) hm

/-- Witness for the backpropagation reverse-traversal theorem on the
concrete network `netW3` (all widths 1, batch size 1), at layer 1. -/
theorem back_propagation_reverse_traversal_instance :
    (back_propagation A_Fq (forward_propagation A_Fq netW3 [[1]] [[0]]).1
        [[1]] [[0]]).delta_b.getD 1 [] =
      rowSumCol (gAtLayer A_Fq netW3.W netW3.activation
        (forward_propagation A_Fq netW3 [[1]] [[0]]).1.a (netW3.n_layers - 1)
        (mean_squared_error_gradient
          (lastD (forward_propagation A_Fq netW3 [[1]] [[0]]).1.h [])
          (matTranspose [[0]])) 1) ∧
    IsMat ((back_propagation A_Fq (forward_propagation A_Fq netW3 [[1]]
        [[0]]).1 [[1]] [[0]]).delta_b.getD 1 []) 1 1 :=
  have h := back_propagation_reverse_traversal A_Fq netW3 [[1]] [[0]]
    (fun _ => 1) 1 (by decide) (by decide) (by decide)
    (fun i hi => by
      have hn2 : netW3.n_layers = 2 := by decide
      rw [hn2] at hi
      interval_cases i <;> decide)
    (fun i hi => by
      have hn2 : netW3.n_layers = 2 := by decide
      rw [hn2] at hi
      interval_cases i <;> decide)
    (by decide) (by decide) (by decide) (fun _ => Nat.one_pos) 1 (by decide)
  ⟨h.1, h.2.1⟩

/-! Claim C2: the momentum update rule. -/

theorem updOne_getD_ne (eta alpha lam : ℚ) (method : String) (m : ℕ)
    (dW db : List Mat) (st : List Mat × List Mat × List Vel × List Vel)
    (l j : ℕ) (hj : l ≠ j) :
    (updOne eta alpha lam method m dW db st l).1.getD j [] = st.1.getD j [] ∧
    (updOne eta alpha lam method m dW db st l).2.1.getD j [] =
      st.2.1.getD j [] ∧
    (updOne eta alpha lam method m dW db st l).2.2.1.getD j none =
      st.2.2.1.getD j none ∧
    (updOne eta alpha lam method m dW db st l).2.2.2.getD j none =
      st.2.2.2.getD j none :=
  ⟨getD_set_ne _ _ _ _ _ hj, getD_set_ne _ _ _ _ _ hj,
   getD_set_ne _ _ _ _ _ hj, getD_set_ne _ _ _ _ _ hj⟩

theorem updOne_length (eta alpha lam : ℚ) (method : String) (m : ℕ)
    (dW db : List Mat) (st : List Mat × List Mat × List Vel × List Vel)
    (l : ℕ) :
    (updOne eta alpha lam method m dW db st l).1.length = st.1.length ∧
    (updOne eta alpha lam method m dW db st l).2.1.length = st.2.1.length ∧
    (updOne eta alpha lam method m dW db st l).2.2.1.length =
      st.2.2.1.length ∧
    (updOne eta alpha lam method m dW db st l).2.2.2.length =
      st.2.2.2.length := by
  unfold updOne
  exact ⟨List.length_set _ _ _, List.length_set _ _ _,
    List.length_set _ _ _, List.length_set _ _ _⟩

theorem updateLayersGo_frame (eta alpha lam : ℚ) (method : String) (m : ℕ)
    (dW db : List Mat) :
    ∀ (idxs : List ℕ) (st : List Mat × List Mat × List Vel × List Vel)
      (j : ℕ), j ∉ idxs →
    (updateLayersGo eta alpha lam method m dW db idxs st).1.getD j [] =
      st.1.getD j [] ∧
    (updateLayersGo eta alpha lam method m dW db idxs st).2.1.getD j [] =
      st.2.1.getD j [] ∧
    (updateLayersGo eta alpha lam method m dW db idxs st).2.2.1.getD j none =
      st.2.2.1.getD j none ∧
    (updateLayersGo eta alpha lam method m dW db idxs st).2.2.2.getD j none =
      st.2.2.2.getD j none := by
  intro idxs
  induction idxs with
  | nil => intro st j hj; exact ⟨rfl, rfl, rfl, rfl⟩
  | cons l rest ih =>
      intro st j hj
      have hjl : l ≠ j := fun h => hj (h ▸ List.mem_cons_self l rest)
      have hrest : j ∉ rest := fun h => hj (List.mem_cons_of_mem _ h)
      have h1 := updOne_getD_ne eta alpha lam method m dW db st l j hjl
      have h2 := ih (updOne eta alpha lam method m dW db st l) j hrest
      unfold updateLayersGo
      exact ⟨h2.1.trans h1.1, h2.2.1.trans h1.2.1,
        h2.2.2.1.trans h1.2.2.1, h2.2.2.2.trans h1.2.2.2⟩

theorem updOne_getD_self (eta alpha lam : ℚ) (method : String) (m : ℕ)
    (dW db : List Mat) (st : List Mat × List Mat × List Vel × List Vel)
    (l : ℕ) (hW : l < st.1.length) (hb : l < st.2.1.length)
    (hvW : l < st.2.2.1.length) (hvb : l < st.2.2.2.length) :
    (updOne eta alpha lam method m dW db st l).1.getD l [] =
      npAdd (st.1.getD l [])
        (velNew alpha (eta / (m : ℚ)) (st.2.2.1.getD l none)
          (npAdd (regularization (st.1.getD l []) lam method)
            (dW.getD l []))) ∧
    (updOne eta alpha lam method m dW db st l).2.1.getD l [] =
      npAdd (st.2.1.getD l [])
        (velNew alpha (eta / (m : ℚ)) (st.2.2.2.getD l none)
          (db.getD l [])) ∧
    (updOne eta alpha lam method m dW db st l).2.2.1.getD l none =
      some (velNew alpha (eta / (m : ℚ)) (st.2.2.1.getD l none)
        (npAdd (regularization (st.1.getD l []) lam method)
          (dW.getD l []))) ∧
    (updOne eta alpha lam method m dW db st l).2.2.2.getD l none =
      some (velNew alpha (eta / (m : ℚ)) (st.2.2.2.getD l none)
        (db.getD l [])) :=
  ⟨getD_set_self _ _ _ _ hW, getD_set_self _ _ _ _ hb,
   getD_set_self _ _ _ _ hvW, getD_set_self _ _ _ _ hvb⟩

theorem updateLayersGo_getD (eta alpha lam : ℚ) (method : String) (m : ℕ)
    (dW db : List Mat) :
    ∀ (idxs : List ℕ) (st : List Mat × List Mat × List Vel × List Vel)
      (j : ℕ), idxs.Nodup → j ∈ idxs →
      j < st.1.length → j < st.2.1.length → j < st.2.2.1.length →
      j < st.2.2.2.length →
    (updateLayersGo eta alpha lam method m dW db idxs st).1.getD j [] =
      npAdd (st.1.getD j [])
        (velNew alpha (eta / (m : ℚ)) (st.2.2.1.getD j none)
          (npAdd (regularization (st.1.getD j []) lam method)
            (dW.getD j []))) ∧
    (updateLayersGo eta alpha lam method m dW db idxs st).2.1.getD j [] =
      npAdd (st.2.1.getD j [])
        (velNew alpha (eta / (m : ℚ)) (st.2.2.2.getD j none)
          (db.getD j [])) ∧
    (updateLayersGo eta alpha lam method m dW db idxs st).2.2.1.getD j none =
      some (velNew alpha (eta / (m : ℚ)) (st.2.2.1.getD j none)
        (npAdd (regularization (st.1.getD j []) lam method)
          (dW.getD j []))) ∧
    (updateLayersGo eta alpha lam method m dW db idxs st).2.2.2.getD j none =
      some (velNew alpha (eta / (m : ℚ)) (st.2.2.2.getD j none)
        (db.getD j [])) := by
  intro idxs
  induction idxs with
  | nil => intro st j _ hm'; exact absurd hm' (List.not_mem_nil j)
  | cons l rest ih =>
      intro st j hnd hmem hW hb hvW hvb
      unfold updateLayersGo
      rcases List.mem_cons.mp hmem with heq | hmem'
      · subst heq
        have hnr : j ∉ rest := (List.nodup_cons.mp hnd).1
        have hfr := updateLayersGo_frame eta alpha lam method m dW db rest
          (updOne eta alpha lam method m dW db st j) j hnr
        have hself := updOne_getD_self eta alpha lam method m dW db st j
          hW hb hvW hvb
        exact ⟨hfr.1.trans hself.1, hfr.2.1.trans hself.2.1,
          hfr.2.2.1.trans hself.2.2.1, hfr.2.2.2.trans hself.2.2.2⟩
      · have hjl : l ≠ j := fun h => (List.nodup_cons.mp hnd).1 (h ▸ hmem')
        have hne := updOne_getD_ne eta alpha lam method m dW db st l j hjl
        have hlen := updOne_length eta alpha lam method m dW db st l
        have hrec := ih (updOne eta alpha lam method m dW db st l) j
          (List.nodup_cons.mp hnd).2 hmem'
          (by rw [hlen.1]; exact hW) (by rw [hlen.2.1]; exact hb)
          (by rw [hlen.2.2.1]; exact hvW) (by rw [hlen.2.2.2]; exact hvb)
        rw [hrec.1, hrec.2.1, hrec.2.2.1, hrec.2.2.2,
          hne.1, hne.2.1, hne.2.2.1, hne.2.2.2]
        exact ⟨rfl, rfl, rfl, rfl⟩

theorem velNew_none_eq (alpha c : ℚ) (d : Mat) :
    velNew alpha c none d =
      matSub (smulMat alpha (mapMat (fun _ => 0) d)) (smulMat c d) := by
  show matNeg (smulMat c d) = _
  unfold matNeg matSub smulMat mapMat
  induction d with
  | nil => rfl
  | cons r d ih =>
      simp only [List.map_cons, List.zipWith_cons_cons, List.cons.injEq]
      refine ⟨?_, ih⟩
      induction r with
      | nil => rfl
      | cons q r ihr =>
          simp only [List.map_cons, List.zipWith_cons_cons, List.cons.injEq]
          exact ⟨by ring, ihr⟩

/-- C2: for every layer `j` of the per-batch update loop over
`range(n_layers)` with an `m`-row mini-batch, the update is exactly
`weight_decay = regularization(W[j], λ, method)` (`λ·sign(W)` for L1,
`λ·W` for L2), `velocity_b[j] ← α·velocity_b[j] − (η/m)·delta_b[j]` then
`b[j] ← b[j] + velocity_b[j]`, and
`velocity_W[j] ← α·velocity_W[j] − (η/m)·(weight_decay + delta_W[j])`
then `W[j] ← W[j] + velocity_W[j]` (with the int-0 velocity placeholder
reading as the zero matrix); the regularization term never enters the
bias update (the bias result is independent of `λ` and the method), and
both velocity accumulators are the zero placeholders at the start of
every `train()` call. -/
theorem momentum_update_rule (eta alpha lam : ℚ) (method : String) (m : ℕ)
    (dW db Wc bc : List Mat) (vW vb : List Vel) (n : ℕ)
    (hW : n ≤ Wc.length) (hb : n ≤ bc.length)
    (hvW : n ≤ vW.length) (hvb : n ≤ vb.length) :
    (∀ j, j < n →
      (updateLayersGo eta alpha lam method m dW db (List.range n)
        (Wc, bc, vW, vb)).1.getD j [] =
        npAdd (Wc.getD j [])
          (velNew alpha (eta / (m : ℚ)) (vW.getD j none)
            (npAdd (regularization (Wc.getD j []) lam method)
              (dW.getD j []))) ∧
      (updateLayersGo eta alpha lam method m dW db (List.range n)
        (Wc, bc, vW, vb)).2.1.getD j [] =
        npAdd (bc.getD j [])
          (velNew alpha (eta / (m : ℚ)) (vb.getD j none) (db.getD j [])) ∧
      (updateLayersGo eta alpha lam method m dW db (List.range n)
        (Wc, bc, vW, vb)).2.2.1.getD j none =
        some (velNew alpha (eta / (m : ℚ)) (vW.getD j none)
          (npAdd (regularization (Wc.getD j []) lam method)
            (dW.getD j []))) ∧
      (updateLayersGo eta alpha lam method m dW db (List.range n)
        (Wc, bc, vW, vb)).2.2.2.getD j none =
        some (velNew alpha (eta / (m : ℚ)) (vb.getD j none)
          (db.getD j []))) ∧
    (∀ (v d : Mat), velNew alpha (eta / (m : ℚ)) (some v) d =
      matSub (smulMat alpha v) (smulMat (eta / (m : ℚ)) d)) ∧
    (∀ d : Mat, velNew alpha (eta / (m : ℚ)) none d =
      matSub (smulMat alpha (mapMat (fun _ => 0) d))
        (smulMat (eta / (m : ℚ)) d)) ∧
    (∀ (lam' : ℚ) (method' : String) (j : ℕ), j < n →
      (updateLayersGo eta alpha lam method m dW db (List.range n)
        (Wc, bc, vW, vb)).2.1.getD j [] =
      (updateLayersGo eta alpha lam' method' m dW db (List.range n)
        (Wc, bc, vW, vb)).2.1.getD j []) ∧
    (∀ (net : Net) (X y : Mat) (Xva : Option (Mat × Mat)),
      (trainStart net X y Xva).vW = List.replicate net.n_layers none ∧
      (trainStart net X y Xva).vb = List.replicate net.n_layers none) := by
  have hchar : ∀ (lam0 : ℚ) (method0 : String) (j : ℕ), j < n →
      (updateLayersGo eta alpha lam0 method0 m dW db (List.range n)
        (Wc, bc, vW, vb)).1.getD j [] =
        npAdd (Wc.getD j [])
          (velNew alpha (eta / (m : ℚ)) (vW.getD j none)
            (npAdd (regularization (Wc.getD j []) lam0 method0)
              (dW.getD j []))) ∧
      (updateLayersGo eta alpha lam0 method0 m dW db (List.range n)
        (Wc, bc, vW, vb)).2.1.getD j [] =
        npAdd (bc.getD j [])
          (velNew alpha (eta / (m : ℚ)) (vb.getD j none) (db.getD j [])) ∧
      (updateLayersGo eta alpha lam0 method0 m dW db (List.range n)
        (Wc, bc, vW, vb)).2.2.1.getD j none =
        some (velNew alpha (eta / (m : ℚ)) (vW.getD j none)
          (npAdd (regularization (Wc.getD j []) lam0 method0)
            (dW.getD j []))) ∧
      (updateLayersGo eta alpha lam0 method0 m dW db (List.range n)
        (Wc, bc, vW, vb)).2.2.2.getD j none =
        some (velNew alpha (eta / (m : ℚ)) (vb.getD j none)
          (db.getD j [])) := by
    intro lam0 method0 j hj
    exact updateLayersGo_getD eta alpha lam0 method0 m dW db (List.range n)
      (Wc, bc, vW, vb) j (List.nodup_range n) (List.mem_range.mpr hj)
      (by show j < Wc.length; omega) (by show j < bc.length; omega)
      (by show j < vW.length; omega) (by show j < vb.length; omega)
  refine ⟨hchar lam method, fun v d => rfl, velNew_none_eq alpha _, ?_, ?_⟩
  · intro lam' method' j hj
    rw [(hchar lam method j hj).2.1, (hchar lam' method' j hj).2.1]
  · intro net X y Xva
    exact ⟨rfl, rfl⟩

/-- Witness for the momentum update rule on concrete one-layer data
(`η = 1`, `α = 0`, `λ = 0`, L2, batch rows `m = 2`). -/
theorem momentum_update_rule_instance :
    (updateLayersGo 1 0 0 "l2" 2 [[[4]]] [[[6]]] (List.range 1)
      ([[[2]]], [[[1]]], [none], [none])).2.1.getD 0 [] =
      npAdd ([[[(1 : ℚ)]]].getD 0 [])
        (velNew 0 (1 / (2 : ℚ)) ([(none : Vel)].getD 0 none)
          ([[[(6 : ℚ)]]].getD 0 [])) :=
  ((momentum_update_rule 1 0 0 "l2" 2 [[[4]]] [[[6]]] [[[2]]]
    [[[1]]] [none] [none] 1 (by decide) (by decide) (by decide)
    (by decide)).1 0 (by decide)).2.1

/-! Claim C4: the early-stopping monitor. -/

/-- The claim's stopping condition at epoch `j` over the validation-error
sequence `L`:
`generalization_loss = 100·(L[j]/min(L[0..j]) − 1)` divided by
`progress = 1000·(sum(L[j−4..j])/(5·min(L[j−4..j])) − 1)` exceeds the
threshold.  Division is total rational division; claim C5 records the
zero-denominator hazard separately. -/
def stopCondAt (epsilon : ℚ) (L : List ℚ) (j : ℕ) : Prop :=
  (100 * (L.getD j 0 / minList (L.take (j + 1)) - 1)) /
    (1000 * ((((L.take (j + 1)).drop (j - 4)).sum) /
      (5 * minList ((L.take (j + 1)).drop (j - 4))) - 1)) > epsilon

instance (epsilon : ℚ) (L : List ℚ) (j : ℕ) :
    Decidable (stopCondAt epsilon L j) := by
  unfold stopCondAt; infer_instance

theorem earlyStopCheckL_iff (ε : ℚ) (L : List ℚ) (e : ℕ)
    (hlen : L.length = e + 1) :
    earlyStopCheckL ε L e = true ↔ stopCondAt ε L e := by
  unfold earlyStopCheckL stopCondAt
  have ht : L.take (e + 1) = L := by rw [← hlen]; exact List.take_length L
  rw [ht]
  exact decide_eq_true_iff

theorem stopCondAt_append (ε : ℚ) (L t : List ℚ) (j : ℕ)
    (hj : j < L.length) :
    stopCondAt ε (L ++ t) j ↔ stopCondAt ε L j := by
  unfold stopCondAt
  rw [List.getD_append _ _ _ _ hj, List.take_append_eq_append_take,
    (by omega : j + 1 - L.length = 0), List.take_zero, List.append_nil]

theorem runEpoch_eva (R : String → ActFun) (σe : Mat → Mat)
    (q : Mat × Mat) (s : TSt) :
    ∃ w, evaOf (runEpoch R σe (some q) s) = evaOf s ++ [w] := by
  have hfr := processBatches_frame R s.net.batch_size
    ((σe (hstackM s.Xc s.yc)).map (fun r => r.take (numCols s.Xc)))
    ((σe (hstackM s.Xc s.yc)).map (fun r => r.drop (numCols s.Xc)))
    (batchStarts ((σe (hstackM s.Xc s.yc)).map
      (fun r => r.take (numCols s.Xc))).length s.net.batch_size)
    { s with Xc := (σe (hstackM s.Xc s.yc)).map (fun r => r.take (numCols s.Xc)),
             yc := (σe (hstackM s.Xc s.yc)).map (fun r => r.drop (numCols s.Xc)) }
    []
  have hva := hfr.1.2.2.2
  unfold runEpoch evaOf
  dsimp only
  rw [hva]
  exact ⟨_, rfl⟩

theorem trainGo_stop_spec (R : String → ActFun) (σ : ℕ → Mat → Mat)
    (q : Mat × Mat) (ε : ℚ) :
    ∀ (fuel e : ℕ) (s : TSt), s.stopped = false → (evaOf s).length = e →
      s.net.epsilon = ε →
      (∃ t, evaOf (trainGo R σ (some q) fuel e s) = evaOf s ++ t) ∧
      ((trainGo R σ (some q) fuel e s).stopped = false →
        (evaOf (trainGo R σ (some q) fuel e s)).length = e + fuel) ∧
      ((trainGo R σ (some q) fuel e s).stopped = true ↔
        ∃ j, e ≤ j ∧ j < (evaOf (trainGo R σ (some q) fuel e s)).length ∧
          (j + 1) % 5 = 0 ∧
          stopCondAt ε (evaOf (trainGo R σ (some q) fuel e s)) j) ∧
      ((trainGo R σ (some q) fuel e s).stopped = true →
        (evaOf (trainGo R σ (some q) fuel e s)).length % 5 = 0 ∧
        5 ≤ (evaOf (trainGo R σ (some q) fuel e s)).length ∧
        (evaOf (trainGo R σ (some q) fuel e s)).length ≤ e + fuel) := by
  intro fuel
  induction fuel with
  | zero =>
      intro e s hst hlen heps
      refine ⟨⟨[], (List.append_nil _).symm⟩, fun _ => hlen, ?_, ?_⟩
      · rw [show trainGo R σ (some q) 0 e s = s from rfl, hst]
        simp only [Bool.false_eq_true, false_iff]
        rintro ⟨j, hje, hjl, -, -⟩
        rw [hlen] at hjl
        omega
      · intro habs
        rw [show trainGo R σ (some q) 0 e s = s from rfl] at habs
        rw [hst] at habs
        exact absurd habs (by simp)
  | succ fuel ih =>
      intro e s hst hlen heps
      obtain ⟨w, hva⟩ := runEpoch_eva R (σ e) q s
      have hfr := runEpoch_frame R (σ e) (some q) s
      have hlen1 : (evaOf (runEpoch R (σ e) (some q) s)).length = e + 1 := by
        rw [hva, List.length_append, hlen]; rfl
      have hst1 : (runEpoch R (σ e) (some q) s).stopped = false := by
        rw [hfr.2, hst]
      have heps1 : (runEpoch R (σ e) (some q) s).net.epsilon = ε := by
        rw [hfr.1.2.2.2.2.2.1, heps]
      have hred : trainGo R σ (some q) (fuel + 1) e s =
          (if ((some q).isSome && ((e + 1) % 5 == 0) &&
            earlyStopCheckL (runEpoch R (σ e) (some q) s).net.epsilon
              (evaOf (runEpoch R (σ e) (some q) s)) e) = true then
            { runEpoch R (σ e) (some q) s with stopped := true }
          else trainGo R σ (some q) fuel (e + 1)
            (runEpoch R (σ e) (some q) s)) := rfl
      by_cases hc : ((some q).isSome && ((e + 1) % 5 == 0) &&
          earlyStopCheckL (runEpoch R (σ e) (some q) s).net.epsilon
            (evaOf (runEpoch R (σ e) (some q) s)) e) = true
      · rw [hred, if_pos hc]
        have hc' := hc
        simp only [Bool.and_eq_true, Option.isSome_some, beq_iff_eq] at hc'
        have hmod : (e + 1) % 5 = 0 := hc'.1.2
        have hchk : earlyStopCheckL ε
            (evaOf (runEpoch R (σ e) (some q) s)) e = true := by
          rw [← heps1]; exact hc'.2
        have hcond : stopCondAt ε (evaOf (runEpoch R (σ e) (some q) s)) e :=
          (earlyStopCheckL_iff ε _ e hlen1).mp hchk
        have heva2 : evaOf ({ runEpoch R (σ e) (some q) s with
            stopped := true } : TSt) = evaOf (runEpoch R (σ e) (some q) s) :=
          rfl
        rw [heva2]
        refine ⟨⟨[w], hva⟩, ?_, ?_, ?_⟩
        · intro habs; exact absurd habs (by simp)
        · simp only [true_iff]
          exact ⟨e, le_refl e, by rw [hlen1]; omega, hmod, hcond⟩
        · intro _
          rw [hlen1]
          omega
      · rw [hred, if_neg hc]
        have hrec := ih (e + 1) (runEpoch R (σ e) (some q) s) hst1 hlen1 heps1
        obtain ⟨t, hvat⟩ := hrec.1
        have hva2 : evaOf (trainGo R σ (some q) fuel (e + 1)
            (runEpoch R (σ e) (some q) s)) = evaOf s ++ ([w] ++ t) := by
          rw [hvat, hva, List.append_assoc]
        refine ⟨⟨[w] ++ t, hva2⟩, ?_, ?_, ?_⟩
        · intro hns
          rw [hrec.2.1 hns]
          omega
        · rw [hrec.2.2.1]
          constructor
          · rintro ⟨j, hje, hjl, hjm, hjc⟩
            exact ⟨j, by omega, hjl, hjm, hjc⟩
          · rintro ⟨j, hje, hjl, hjm, hjc⟩
            rcases Nat.eq_or_lt_of_le hje with heq | hlt
            · exfalso
              rw [← heq] at hjm hjc
              have hon : e < (evaOf (runEpoch R (σ e) (some q) s)).length := by
                rw [hlen1]; omega
              have hpres : stopCondAt ε
                  (evaOf (runEpoch R (σ e) (some q) s)) e := by
                have h2 := (stopCondAt_append ε
                  (evaOf (runEpoch R (σ e) (some q) s)) t e hon).mp
                rw [← hvat] at h2
                exact h2 hjc
              have hchk2 : earlyStopCheckL ε
                  (evaOf (runEpoch R (σ e) (some q) s)) e = true :=
                (earlyStopCheckL_iff ε _ e hlen1).mpr hpres
              apply hc
              rw [heps1]
              simp only [Bool.and_eq_true, Option.isSome_some, beq_iff_eq]
              exact ⟨⟨trivial, hjm⟩, hchk2⟩
            · exact ⟨j, hlt, hjl, hjm, hjc⟩
        · intro hstp
          have h4 := hrec.2.2.2 hstp
          exact ⟨h4.1, h4.2.1, by omega⟩

/-- C4: when a validation set is supplied, the training loop transitions
`RUNNING → STOPPED` (the `break` of line 384) if and only if at some
epoch `j` with `(j + 1) % 5 = 0` the quotient
`generalization_loss / progress` over the recorded validation-error
sequence `E_va` exceeds `epsilon`, where
`generalization_loss = 100·(E_va[j]/min(E_va[0..j]) − 1)` and
`progress = 1000·(sum(E_va[j−4..j])/(5·min(E_va[j−4..j])) − 1)`; the
stop never fires before epoch index 4, a full run records exactly
`epochs` validation errors, and a stopped run ends at the firing epoch
(one error per epoch run, at most `epochs`). -/
theorem early_stopping_characterization (R : String → ActFun)
    (σ : ℕ → Mat → Mat) (net : Net) (X y Xv yv : Mat) :
    (evaOf (train R σ net X y (some (Xv, yv)))).length ≤ net.epochs ∧
    ((train R σ net X y (some (Xv, yv))).stopped = false →
      (evaOf (train R σ net X y (some (Xv, yv)))).length = net.epochs) ∧
    ((train R σ net X y (some (Xv, yv))).stopped = true ↔
      ∃ j, j < (evaOf (train R σ net X y (some (Xv, yv)))).length ∧
        (j + 1) % 5 = 0 ∧ 4 ≤ j ∧
        stopCondAt net.epsilon
          (evaOf (train R σ net X y (some (Xv, yv)))) j) ∧
    ((train R σ net X y (some (Xv, yv))).stopped = true →
      5 ≤ (evaOf (train R σ net X y (some (Xv, yv)))).length ∧
      (evaOf (train R σ net X y (some (Xv, yv)))).length % 5 = 0) := by
  have htr : train R σ net X y (some (Xv, yv)) =
      trainGo R σ (some (Xv, yv)) net.epochs 0
        (trainStart net X y (some (Xv, yv))) := rfl
  have hspec := trainGo_stop_spec R σ (Xv, yv) net.epsilon net.epochs 0
    (trainStart net X y (some (Xv, yv))) rfl rfl rfl
  rw [htr]
  refine ⟨?_, ?_, ?_, ?_⟩
  · rcases Bool.eq_false_or_eq_true
        (trainGo R σ (some (Xv, yv)) net.epochs 0
          (trainStart net X y (some (Xv, yv)))).stopped with ht | hf
    · have h4 := hspec.2.2.2 ht
      omega
    · rw [hspec.2.1 hf]
      omega
  · intro hf
    rw [hspec.2.1 hf]
    omega
  · rw [hspec.2.2.1]
    constructor
    · rintro ⟨j, -, hjl, hjm, hjc⟩
      exact ⟨j, hjl, hjm, by omega, hjc⟩
    · rintro ⟨j, hjl, hjm, h4, hjc⟩
      exact ⟨j, by omega, hjl, hjm, hjc⟩
  · intro ht
    have h4 := hspec.2.2.2 ht
    exact ⟨h4.2.1, h4.1⟩

/-! Claim C5: the zero-denominator hazard in the early-stopping check. -/

/-- A validation-error history that reaches a qualifying check epoch with
a zero `progress` denominator: one early improvement, then a plateau. -/
def evaC5 : List ℚ := [1, 2, 2, 2, 2, 2, 2, 2, 2, 2]

/-- C5 (code-bug evidence): with threshold `ε = 1/4` the run survives the
epoch-4 check, and at the qualifying epoch 9 (`(9+1) % 5 = 0`) the
monitor's `progress` denominator is exactly 0 while
`generalization_loss = 100 > 0`; the code divides by it with no guard
(line 381 of `nn.py`). -/
theorem early_stopping_unguarded_zero_division :
    earlyStopCheckL (1 / 4) (evaC5.take 5) 4 = false ∧
    (9 + 1) % 5 = 0 ∧
    (1000 * ((((evaC5.take 10).drop 5).sum) /
      (5 * minList ((evaC5.take 10).drop 5)) - 1) : ℚ) = 0 ∧
    (100 * (evaC5.getD 9 0 / minList evaC5 - 1) : ℚ) = 100 := by
  with_unfolding_all decide

/-! Claim C7: constructor width validation. -/

/-- C7 (code-bug evidence): constructing a network whose `hidden_sizes`
contains the width 0 succeeds — `__init__` validates `reg_method`, `task`
and the activation-list length, but never the layer widths, so no
`ConfigurationError` is raised (the weight-draw oracle stands in for
`np.random.uniform`, which for width 0 silently returns empty arrays). -/
theorem init_accepts_zero_width :
    (nnInit [[1]] [[1]] [0] (1 / 2) 0 (1 / 10) 10 1 0 "l2"
      (ActArg.str "sigmoid") "classifier" [[], []] [[], []]).toOption.isSome
      = true := by
  decide

/-! Claim C8: `reset` restores the construction snapshot. -/

theorem nnInit_ok_snapshot {X y : Mat} {hs : List ℤ} {eta alpha eps : ℚ}
    {epochs bs : ℕ} {lam : ℚ} {rm : String} {act : ActArg} {task : String}
    {W0 b0 : List Mat} {net : Net}
    (h : nnInit X y hs eta alpha eps epochs bs lam rm act task W0 b0 =
      .ok net) :
    net.W_copy = net.W ∧ net.b_copy = net.b ∧ net.W = W0 ∧ net.b = b0 := by
  unfold nnInit at h
  dsimp only at h
  split at h
  · cases hsa : set_activation (hs.length + 1) act task with
    | error e => rw [hsa] at h; cases h
    | ok acts =>
        rw [hsa] at h
        dsimp only at h
        split at h
        · cases h
          exact ⟨rfl, rfl, rfl, rfl⟩
        · cases h
  · cases h

/-- C8: after any number of `train()` calls (each with its own data,
validation set and shuffle oracle), `reset()` restores weights and
biases exactly to the construction-time snapshot `(W_copy, b_copy)`;
that snapshot is never mutated by training, and on a freshly constructed
network it equals the initial weights and biases, so the restored values
are exactly the post-construction ones. -/
theorem reset_restores_construction_snapshot
    (X y : Mat) (hs : List ℤ) (eta alpha eps : ℚ) (epochs bs : ℕ)
    (lam : ℚ) (rm : String) (act : ActArg) (task : String)
    (W0 b0 : List Mat) (net : Net) (R : String → ActFun)
    (h : nnInit X y hs eta alpha eps epochs bs lam rm act task W0 b0 =
      .ok net)
    (calls : List ((ℕ → Mat → Mat) × Mat × Mat × Option (Mat × Mat))) :
    (reset (trainMany R net calls)).W = net.W ∧
    (reset (trainMany R net calls)).b = net.b ∧
    (trainMany R net calls).W_copy = net.W_copy ∧
    (trainMany R net calls).b_copy = net.b_copy ∧
    net.W_copy = net.W ∧ net.b_copy = net.b := by
  have hsnap := nnInit_ok_snapshot h
  have hcp : ∀ (cs : List ((ℕ → Mat → Mat) × Mat × Mat ×
      Option (Mat × Mat))) (n' : Net),
      (trainMany R n' cs).W_copy = n'.W_copy ∧
      (trainMany R n' cs).b_copy = n'.b_copy := by
    intro cs
    induction cs with
    | nil => intro n'; exact ⟨rfl, rfl⟩
    | cons c cs ih =>
        intro n'
        have htf := train_frame R c.1 n' c.2.1 c.2.2.1 c.2.2.2
        have hr := ih ((train R c.1 n' c.2.1 c.2.2.1 c.2.2.2).net)
        exact ⟨hr.1.trans htf.1, hr.2.trans htf.2.1⟩
  have hW : (reset (trainMany R net calls)).W =
      (trainMany R net calls).W_copy := rfl
  have hB : (reset (trainMany R net calls)).b =
      (trainMany R net calls).b_copy := rfl
  refine ⟨?_, ?_, (hcp calls net).1, (hcp calls net).2, hsnap.1, hsnap.2.1⟩
  · rw [hW, (hcp calls net).1, hsnap.1]
  · rw [hB, (hcp calls net).2, hsnap.2.1]

/-- Witness for the reset/snapshot theorem: one concrete `train` call on
`netW3`, then `reset`. -/
theorem reset_restores_snapshot_instance :
    (reset (trainMany A_Fq netW3 [(sigmaId, [[1]], [[0]], none)])).W =
      netW3.W ∧
    (reset (trainMany A_Fq netW3 [(sigmaId, [[1]], [[0]], none)])).b =
      netW3.b :=
  have h := reset_restores_construction_snapshot [[1]] [[0]] [1] (1 / 2) 0
    (1 / 10) 3 1 0 "l2" (ActArg.str "relu") "classifier" [[[2]], [[1]]]
    [[[1]], [[0]]] netW3 A_Fq rfl [(sigmaId, [[1]], [[0]], none)]
  ⟨h.1, h.2.1⟩

/-! Claim C9: the `get_params` round trip. -/

/-- Re-construct a network from the dictionary returned by `get_params`,
on the same data; the parameters absent from the dictionary (`epsilon`,
`w_par`, `task`) take the constructor defaults, and fresh weight/bias
draws stand in for `np.random`. -/
def rebuildFromParams (X y : Mat) (p : Params) (W1 b1 : List Mat) :
    Except String Net :=
  nnInit X y p.hidden_sizes p.eta p.alpha (1 / 10) p.epochs p.batch_size
    p.reg_lambda p.reg_method (ActArg.listOf p.activation) "classifier" W1 b1

theorem set_activation_length {n : ℕ} {a : ActArg} {t : String}
    {l : List String} (h : set_activation n a t = .ok l) : l.length = n := by
  unfold set_activation at h
  cases a with
  | listOf names =>
      dsimp only at h
      split at h
      · cases h; assumption
      · cases h
  | str name =>
      dsimp only at h
      cases h
      split
      · simp [setLastStr]
      · simp

theorem nnInit_ok_fields {X y : Mat} {hs : List ℤ} {eta alpha eps : ℚ}
    {epochs bs : ℕ} {lam : ℚ} {rm : String} {act : ActArg} {task : String}
    {W0 b0 : List Mat} {net : Net}
    (h : nnInit X y hs eta alpha eps epochs bs lam rm act task W0 b0 =
      .ok net) :
    (rm = "l1" ∨ rm = "l2") ∧
    set_activation (hs.length + 1) act task = .ok net.activation ∧
    net.hidden_sizes = hs ∧
    net.topology = compose_topology X hs y ∧
    net.eta = eta ∧ net.alpha = alpha ∧ net.batch_size = bs ∧
    net.reg_method = rm ∧ net.reg_lambda = lam ∧ net.epochs = epochs := by
  unfold nnInit at h
  dsimp only at h
  split at h
  case isTrue hrm =>
    cases hsa : set_activation (hs.length + 1) act task with
    | error e => rw [hsa] at h; cases h
    | ok acts =>
        rw [hsa] at h
        dsimp only at h
        split at h
        · cases h
          exact ⟨hrm, rfl, rfl, rfl, rfl, rfl, rfl, rfl, rfl, rfl⟩
        · cases h
  case isFalse hrm => cases h

/-- C9: building a second network on the same `X`, `y` from exactly the
dictionary returned by `get_params()` succeeds and yields an instance
with the same topology (ordered layer widths) and the same per-layer
activation assignment as the original. -/
theorem get_params_round_trip
    (X y : Mat) (hs : List ℤ) (eta alpha eps : ℚ) (epochs bs : ℕ)
    (lam : ℚ) (rm : String) (act : ActArg) (task : String)
    (W0 b0 W1 b1 : List Mat) (net : Net)
    (h : nnInit X y hs eta alpha eps epochs bs lam rm act task W0 b0 =
      .ok net) :
    ∃ net2, rebuildFromParams X y (get_params net) W1 b1 = .ok net2 ∧
      net2.topology = net.topology ∧
      net2.activation = net.activation := by
  have hf := nnInit_ok_fields h
  have hlen : net.activation.length = hs.length + 1 :=
    set_activation_length hf.2.1
  have hcond1 : net.reg_method = "l1" ∨ net.reg_method = "l2" := by
    rw [hf.2.2.2.2.2.2.2.1]; exact hf.1
  have hlen2 : net.activation.length = net.hidden_sizes.length + 1 := by
    rw [hf.2.2.1]; exact hlen
  refine ⟨{ hidden_sizes := net.hidden_sizes,
            n_layers := net.hidden_sizes.length + 1,
            topology := compose_topology X net.hidden_sizes y,
            eta := net.eta, alpha := net.alpha, epsilon := 1 / 10,
            batch_size := net.batch_size, reg_method := net.reg_method,
            reg_lambda := net.reg_lambda, epochs := net.epochs,
            activation := net.activation,
            W := W1, W_copy := W1, b := b1, b_copy := b1,
            delta_W := List.replicate (net.hidden_sizes.length + 1) [],
            delta_b := List.replicate (net.hidden_sizes.length + 1) [],
            a := List.replicate (net.hidden_sizes.length + 1) [],
            h := List.replicate (net.hidden_sizes.length + 1) [],
            task := "classifier",
            error_per_epochs := [], error_per_epochs_old := [],
            error_per_batch := [], error_per_epochs_va := none }, ?_, ?_, rfl⟩
  · unfold rebuildFromParams get_params nnInit
    dsimp only
    rw [if_pos hcond1]
    unfold set_activation
    dsimp only
    rw [if_pos hlen2]
    dsimp only
    rw [if_pos (Or.inl rfl : "classifier" = "classifier" ∨
      ("classifier" : String) = "regression")]
  · show compose_topology X net.hidden_sizes y = net.topology
    rw [hf.2.2.1, hf.2.2.2.1]

/-- Witness for the round trip on the concrete network `netW3` (fresh
weight draws for the rebuild). -/
theorem get_params_round_trip_instance :
    ∃ net2, rebuildFromParams [[1]] [[0]] (get_params netW3) [[[5]], [[7]]]
        [[[0]], [[0]]] = .ok net2 ∧
      net2.topology = netW3.topology ∧
      net2.activation = netW3.activation :=
  get_params_round_trip [[1]] [[0]] [1] (1 / 2) 0 (1 / 10) 3 1 0 "l2"
    (ActArg.str "relu") "classifier" [[[2]], [[1]]] [[[1]], [[0]]]
    [[[5]], [[7]]] [[[0]], [[0]]] netW3 rfl

/-! Claim C10: the per-epoch shuffle never writes the caller's arrays. -/

theorem shuffleStepH_preserves (σe : Mat → Mat) (s : Store) (rX ry r : ℕ)
    (hr : r < s.arrs.length) :
    ((shuffleStepH σe s rX ry).1).read r = s.read r ∧
    s.arrs.length ≤ ((shuffleStepH σe s rX ry).1).arrs.length := by
  unfold shuffleStepH Store.alloc Store.write Store.read
  dsimp only
  constructor
  · rw [List.getD_append _ _ _ _
        (by simp only [List.length_append, List.length_set]; omega),
      List.getD_append _ _ _ _
        (by simp only [List.length_append, List.length_set]; omega),
      getD_set_ne _ _ _ _ _ (by omega),
      List.getD_append _ _ _ _ hr]
  · simp only [List.length_append, List.length_set]
    omega

theorem shuffleEpochsH_preserves :
    ∀ (σs : List (Mat → Mat)) (s : Store) (rX ry r : ℕ),
      r < s.arrs.length →
      ((shuffleEpochsH σs s rX ry).1).read r = s.read r := by
  intro σs
  induction σs with
  | nil => intro s rX ry r hr; rfl
  | cons σe rest ih =>
      intro s rX ry r hr
      have hp := shuffleStepH_preserves σe s rX ry r hr
      have hr2 : r < ((shuffleStepH σe s rX ry).1).arrs.length :=
        lt_of_lt_of_le hr hp.2
      unfold shuffleEpochsH
      dsimp only
      rw [ih _ _ _ r hr2, hp.1]

/-- C10: in the heap model of lines 322-324, any number of per-epoch
shuffle steps — each allocating a fresh `np.hstack` concatenation of the
current locals, permuting it in place, and rebinding the locals to the
`np.hsplit` halves — leaves the contents of the caller's original `X`
and `y` references unchanged, for every shuffle outcome. -/
theorem shuffle_preserves_caller_arrays (σs : List (Mat → Mat)) (s : Store)
    (rX ry : ℕ) (hX : rX < s.arrs.length) (hy : ry < s.arrs.length) :
    ((shuffleEpochsH σs s rX ry).1).read rX = s.read rX ∧
    ((shuffleEpochsH σs s rX ry).1).read ry = s.read ry :=
  ⟨shuffleEpochsH_preserves σs s rX ry rX hX,
   shuffleEpochsH_preserves σs s rX ry ry hy⟩

/-- Witness for the shuffle frame property: a two-row dataset, two
epochs whose shuffle outcome reverses the rows. -/
theorem shuffle_preserves_caller_arrays_instance :
    ((shuffleEpochsH [fun d => d.reverse, fun d => d.reverse]
        { arrs := [[[1], [2]], [[3], [4]]] } 0 1).1).read 0 =
      ({ arrs := [[[1], [2]], [[3], [4]]] } : Store).read 0 ∧
    ((shuffleEpochsH [fun d => d.reverse, fun d => d.reverse]
        { arrs := [[[1], [2]], [[3], [4]]] } 0 1).1).read 1 =
      ({ arrs := [[[1], [2]], [[3], [4]]] } : Store).read 1 :=
  shuffle_preserves_caller_arrays [fun d => d.reverse, fun d => d.reverse]
    { arrs := [[[1], [2]], [[3], [4]]] } 0 1 (by decide) (by decide)
